import Mathlib

/-!
Verification of the ranked-retrieval core: a shallow embedding of
`milli/src/search/new/resolve_query_graph.rs` and
`milli/src/search/new/bucket_sort.rs`, with theorems checking the
natural-language specification against the code.

Machine integers (`u32` document ids, `u64`/`usize` lengths) are modelled as
`ℕ`; no arithmetic in the embedded code can overflow in practice and none of
the verified properties depend on wrap-around.  `RoaringBitmap` is modelled as
`Finset ℕ` (ascending iteration order becomes `ascList`, the kernel-computable
ascending element list).  Rust
`Result` propagation (`?`) is modelled with an explicit error constructor, and
Rust panics (`panic!`, `todo!`, a failed `assert!`) are modelled as a separate
`panic` outcome so that "propagated error" and "crash" remain distinguishable.
Loops that the source does not prove terminating are given explicit fuel; the
`fuelOut` outcome is a model artefact meaning "the loop was still running".
-/

namespace MeiliCore

/-! ## Part A: data model of `resolve_query_graph.rs` -/

/-- Word derivations attached to a query term
(`query_term.rs::WordDerivations` as used by the resolver). -/
structure WordDerivations where
  original : String
  zero_typo : List String
  one_typo : List String
  two_typos : List String
  use_prefix_db : Bool
deriving DecidableEq

/-- `query_term.rs::QueryTerm`: either a phrase or a word with derivations. -/
inductive QueryTerm where
  | phrase (words : List String)
  | word (derivations : WordDerivations)
deriving DecidableEq

/-- `QueryNode`: the node kinds matched in `resolve_query_graph`. -/
inductive QueryNode where
  | term (t : QueryTerm)
  | deleted
  | start
  | endNode
deriving DecidableEq

/-- Discriminator: is this node an (unimplemented) phrase term? -/
def QueryNode.isPhrase : QueryNode → Bool
  | .term (.phrase _) => true
  | _ => false

/-- The per-node edge sets (`q.edges[node].predecessors/successors`),
small bitmaps over node ids. -/
structure Edges where
  predecessors : Finset ℕ
  successors : Finset ℕ
deriving DecidableEq

/-- `QueryGraph` as accessed by the resolver: node list, edge list,
and the root node id. -/
structure QueryGraph where
  nodes : List QueryNode
  edges : List Edges
  root_node : ℕ
deriving DecidableEq

/-- The word/prefix posting-list store behind `DatabaseCache`.  The cache
itself only memoizes reads, so it is modelled by the (pure) store directly;
a `none` answer is the store's "word absent" result.  Posting lists arrive
already decoded (the codec is out of scope). -/
structure Store where
  wordDocids : String → Option (Finset ℕ)
  prefixDocids : String → Option (Finset ℕ)

/-- Distinguishes the `panic!`/`todo!` sites of the resolver and the
`assert!` of the bucket-sort driver. -/
inductive PanicKind where
  | deletedNode
  | emptyQueue
  | todoPhrase
  | assertFailed
deriving DecidableEq

/-- The error kinds named by the specification (§7).  The embedded code can
only ever produce `storeError` (via `?` on store reads, which the pure store
model never signals); the other kinds exist so that claims "this situation is
reported as error X" can be stated and compared with what the code does. -/
inductive RunErr where
  | storeError
  | invariantViolation
  | unsupported
  | cancelled
  | badRequest
deriving DecidableEq

/-- Outcome of running embedded resolver code: a value, a propagated
`Result::Err`, a Rust panic, or fuel exhaustion (model artefact). -/
inductive Outcome (α : Type) where
  | ok (a : α)
  | err (e : RunErr)
  | panic (k : PanicKind)
  | fuelOut
deriving DecidableEq

/-- `NodeDocIdsCache.cache`: node id ↦ memoized bitmap. -/
def NodeCache : Type := ℕ → Option (Finset ℕ)

/-- The empty `NodeDocIdsCache` (`NodeDocIdsCache::default()`). -/
def emptyNodeCache : NodeCache := fun _ => none

/-- Union of the posting lists of all derivations of a word term
(the `or_docids` computation of `NodeDocIdsCache::get_docids`):
every zero/one/two-typo derivation, plus the prefix posting list of
`original` when `use_prefix_db` is set. -/
def wordDerivationsDocids (st : Store) (d : WordDerivations) : Finset ℕ :=
  let base := ((d.zero_typo ++ d.one_typo ++ d.two_typos).filterMap
      st.wordDocids).foldl (· ∪ ·) ∅
  if d.use_prefix_db then
    match st.prefixDocids d.original with
    | some s => base ∪ s
    | none => base
  else base

/-- `NodeDocIdsCache::get_docids`: return the cached bitmap if present;
otherwise a phrase term hits `todo!("resolve phrase")` (a panic), and a word
term computes the derivations union and memoizes it. -/
def getDocids (st : Store) (cache : NodeCache) (term : QueryTerm) (node_idx : ℕ) :
    Outcome (Finset ℕ × NodeCache) :=
  match cache node_idx with
  | some b => .ok (b, cache)
  | none =>
    match term with
    | .phrase _ => .panic .todoPhrase
    | .word der =>
      let docids := wordDerivationsDocids st der
      .ok (docids, Function.update cache node_idx (some docids))

/-- The node kind stored at id `n` (out-of-range reads modelled by the
`deleted` placeholder; well-formed graphs never index out of range). -/
def nodeKind (g : QueryGraph) (n : ℕ) : QueryNode := g.nodes.getD n .deleted

/-- `q.edges[n].successors`. -/
def succsOf (g : QueryGraph) (n : ℕ) : Finset ℕ := (g.edges.getD n ⟨∅, ∅⟩).successors

/-- `q.edges[n].predecessors`. -/
def predsOf (g : QueryGraph) (n : ℕ) : Finset ℕ := (g.edges.getD n ⟨∅, ∅⟩).predecessors

/-- State of the `resolve_query_graph` work loop. -/
structure RState where
  resolved : Finset ℕ
  pathDocids : List (Finset ℕ)
  queue : List ℕ
  cache : NodeCache

/-- Union of the path bitmaps of a set of predecessor nodes
(`MultiOps::union(predecessors.iter().map(...))`). -/
def predUnion (pathDocids : List (Finset ℕ)) (preds : Finset ℕ) : Finset ℕ :=
  preds.sup (fun p => pathDocids.getD p ∅)

/-- The ascending list of a `Finset ℕ`: the model of iterating a roaring
bitmap in ascending docid/node-id order (kernel-computable). -/
def ascList (s : Finset ℕ) : List ℕ :=
  (List.range (s.sup id + 1)).filter (· ∈ s)

/-- Enqueue the successors of a freshly resolved node, in ascending id order,
skipping nodes already queued or already resolved. -/
def enqueueSuccs (succs : Finset ℕ) (resolved : Finset ℕ) (queue : List ℕ) : List ℕ :=
  (ascList succs).foldl
    (fun q s => if s ∈ q ∨ s ∈ resolved then q else q ++ [s]) queue

/-- The memory-economy pass: clear the path bitmap of every predecessor whose
successors are now all resolved. -/
def clearDonePreds (g : QueryGraph) (node : ℕ) (resolved : Finset ℕ)
    (pathDocids : List (Finset ℕ)) : List (Finset ℕ) :=
  (ascList (predsOf g node)).foldl
    (fun pd p => if succsOf g p ⊆ resolved then pd.set p ∅ else pd)
    pathDocids

/-- One-shot state update after resolving `node` with bitmap `docids`:
mark resolved, store the bitmap, enqueue unvisited successors, and free
predecessors whose successors are all resolved. -/
def resolveFinish (g : QueryGraph) (node : ℕ) (docids : Finset ℕ) (rest : List ℕ)
    (s : RState) (cache : NodeCache) : RState :=
  let resolved := insert node s.resolved
  let pathDocids := s.pathDocids.set node docids
  let queue := enqueueSuccs (succsOf g node) resolved rest
  { resolved := resolved
    pathDocids := clearDonePreds g node resolved pathDocids
    queue := queue
    cache := cache }

/-- The work loop of `resolve_query_graph` (fuel-indexed).  An empty queue is
the source's final `panic!()`; a node whose predecessors are not all resolved
is re-queued at the back; otherwise the node is dispatched on its kind. -/
def resolveLoop (st : Store) (g : QueryGraph) (uni : Finset ℕ) :
    ℕ → RState → Outcome (Finset ℕ)
  | 0, _ => .fuelOut
  | fuel + 1, s =>
    match s.queue with
    | [] => .panic .emptyQueue
    | node :: rest =>
      let preds := predsOf g node
      if ¬ preds ⊆ s.resolved then
        resolveLoop st g uni fuel { s with queue := rest ++ [node] }
      else
        let predDocids := predUnion s.pathDocids preds
        match nodeKind g node with
        | .term t =>
          match getDocids st s.cache t node with
          | .ok (der, cache) =>
            resolveLoop st g uni fuel
              (resolveFinish g node (predDocids ∩ der) rest s cache)
          | .err e => .err e
          | .panic k => .panic k
          | .fuelOut => .fuelOut
        | .deleted => .panic .deletedNode
        | .start =>
          resolveLoop st g uni fuel
            (resolveFinish g node uni rest s s.cache)
        | .endNode => .ok predDocids

/-- Initial loop state: nothing resolved, all path bitmaps empty, the root
node queued. -/
def initState (g : QueryGraph) (cache : NodeCache) : RState :=
  { resolved := ∅
    pathDocids := List.replicate g.nodes.length ∅
    queue := [g.root_node]
    cache := cache }

/-- `resolve_query_graph`: run the work loop from the root node with all path
bitmaps empty. -/
def resolve_query_graph (st : Store) (g : QueryGraph) (cache : NodeCache)
    (uni : Finset ℕ) (fuel : ℕ) : Outcome (Finset ℕ) :=
  resolveLoop st g uni fuel (initState g cache)

/-! ### Path semantics of a query graph

The specification's reading of resolution: a document matches the graph when
it lies in the universe and some Start→End path accepts it, where a term node
accepts exactly the documents in the union of its derivations' posting lists
(the node-wise intersection rule). -/

/-- One edge step: `v` is a successor of `u`. -/
def isStep (g : QueryGraph) (u v : ℕ) : Prop := v ∈ succsOf g u

/-- The docids accepted by a term (`∅` for an unimplemented phrase). -/
def termDocids (st : Store) : QueryTerm → Finset ℕ
  | .phrase _ => ∅
  | .word der => wordDerivationsDocids st der

/-- `doc` is accepted at node `n`: if `n` is a term node, `doc` must lie in
the union of its derivations' posting lists; Start/End impose nothing. -/
def nodeOk (st : Store) (g : QueryGraph) (doc : ℕ) (n : ℕ) : Prop :=
  ∀ t, nodeKind g n = .term t → doc ∈ termDocids st t

/-- A path of nodes starting at the root, following successor edges, every
node of which accepts `doc`. -/
def okPath (st : Store) (g : QueryGraph) (doc : ℕ) (l : List ℕ) : Prop :=
  l.head? = some g.root_node ∧ l.Chain' (isStep g) ∧ ∀ m ∈ l, nodeOk st g doc m

/-- `doc` matches the query graph: it lies in the universe and some
Start→End path accepts it (`e` is the End node). -/
def matchesGraph (st : Store) (g : QueryGraph) (uni : Finset ℕ) (e : ℕ) (doc : ℕ) : Prop :=
  doc ∈ uni ∧ ∃ l, okPath st g doc l ∧ l.getLast? = some e

/-- Inductive form of path acceptance: `doc ∈ uni` reaches the root, and an
accepted node propagates along any successor edge to another accepted node. -/
inductive Reaches (st : Store) (g : QueryGraph) (uni : Finset ℕ) (doc : ℕ) : ℕ → Prop where
  | root : doc ∈ uni → nodeOk st g doc g.root_node → Reaches st g uni doc g.root_node
  | step {u v : ℕ} : Reaches st g uni doc u → isStep g u v → nodeOk st g doc v →
      Reaches st g uni doc v

/-- Well-formedness of a query graph (specification §3), with the End node
`e` and a witnessing topological numbering `topo` made explicit.
`no_phrase` reflects that phrase resolution is not implemented in this
revision (spec §4.3 open questions). -/
structure WFGraph (g : QueryGraph) (e : ℕ) (topo : ℕ → ℕ) : Prop where
  edges_len : g.edges.length = g.nodes.length
  root_lt : g.root_node < g.nodes.length
  root_start : nodeKind g g.root_node = .start
  start_unique : ∀ n < g.nodes.length, nodeKind g n = .start → n = g.root_node
  end_lt : e < g.nodes.length
  end_kind : nodeKind g e = .endNode
  end_unique : ∀ n < g.nodes.length, nodeKind g n = .endNode → n = e
  no_deleted : ∀ n < g.nodes.length, nodeKind g n ≠ .deleted
  no_phrase : ∀ n < g.nodes.length, (nodeKind g n).isPhrase = false
  succ_lt : ∀ n < g.nodes.length, ∀ v ∈ succsOf g n, v < g.nodes.length
  pred_lt : ∀ n < g.nodes.length, ∀ v ∈ predsOf g n, v < g.nodes.length
  symm : ∀ u < g.nodes.length, ∀ v < g.nodes.length,
    (v ∈ succsOf g u ↔ u ∈ predsOf g v)
  root_no_preds : predsOf g g.root_node = ∅
  preds_nonempty : ∀ n < g.nodes.length, n ≠ g.root_node → (predsOf g n).Nonempty
  topo_lt : ∀ u < g.nodes.length, ∀ v ∈ succsOf g u, topo u < topo v

/-- Invariant maintained by the work loop of `resolve_query_graph`:
the queue holds distinct, in-range, unresolved nodes; the End node is never
marked resolved; unresolved nodes have empty path bitmaps; a resolved node
whose successors are not all resolved still holds its exact path semantics
(`Reaches`); the memo cache only holds correct per-term bitmaps; and every
in-range node whose predecessors are all resolved is resolved or queued. -/
structure Inv (st : Store) (g : QueryGraph) (uni : Finset ℕ) (e : ℕ) (s : RState) : Prop where
  pd_len : s.pathDocids.length = g.nodes.length
  queue_lt : ∀ n ∈ s.queue, n < g.nodes.length
  queue_nodup : s.queue.Nodup
  queue_unresolved : ∀ n ∈ s.queue, n ∉ s.resolved
  resolved_lt : ∀ n ∈ s.resolved, n < g.nodes.length
  end_unresolved : e ∉ s.resolved
  pd_unresolved : ∀ n, n ∉ s.resolved → s.pathDocids.getD n ∅ = ∅
  pd_sem : ∀ n ∈ s.resolved, ¬ succsOf g n ⊆ s.resolved →
    ∀ d, d ∈ s.pathDocids.getD n ∅ ↔ Reaches st g uni d n
  cache_ok : ∀ n b, s.cache n = some b → ∃ t, nodeKind g n = .term t ∧ b = termDocids st t
  fringe : ∀ v < g.nodes.length, predsOf g v ⊆ s.resolved → v ∈ s.resolved ∨ v ∈ s.queue

/-- Decrease measure for the work loop: unresolved-node count, then the
position of the first ready node in the queue. -/
def rMeasure (g : QueryGraph) (s : RState) : ℕ :=
  (g.nodes.length - s.resolved.card) * (g.nodes.length + 1) +
    s.queue.findIdx (fun n => decide (predsOf g n ⊆ s.resolved))

/-! ### Concrete fixtures for witnesses and counterexamples (Part A) -/

/-- A small concrete posting-list store. -/
def exStore : Store :=
  ⟨fun w => if w = "a" then some {1, 2} else if w = "b" then some {2, 3} else none,
   fun _ => none⟩

def exTermA : QueryTerm := .word ⟨"a", ["a"], [], [], false⟩

def exTermB : QueryTerm := .word ⟨"b", ["b"], [], [], false⟩

/-- Start → "a" → "b" → End. -/
def exGraph : QueryGraph :=
  ⟨[.start, .term exTermA, .term exTermB, .endNode],
   [⟨∅, {1}⟩, ⟨{0}, {2}⟩, ⟨{1}, {3}⟩, ⟨{2}, ∅⟩], 0⟩

/-- Start → Deleted → End: a malformed graph whose Deleted node is processed. -/
def exGraphDel : QueryGraph :=
  ⟨[.start, .deleted, .endNode],
   [⟨∅, {1}⟩, ⟨{0}, {2}⟩, ⟨{1}, ∅⟩], 0⟩


/-! ## Part B: data model of `bucket_sort.rs` -/

/-- `RankingRuleOutput`: a bucket of candidates with its refined query. -/
structure Bucket (Q : Type) where
  candidates : Finset ℕ
  query : Q

/-- A ranking rule as a deterministic state machine over an arbitrary state
type `σ` (the rule's `&mut self` state), with errors in `ε`:
`start_iteration` prepares per-descent state, `next_bucket` emits the next
bucket (`none` = exhaustion at this level), `end_iteration` releases
per-descent state (no `Result` in the source signature). -/
structure RankingRule (σ ε Q : Type) where
  start_iteration : σ → Finset ℕ → Q → Except ε σ
  next_bucket : σ → Finset ℕ → Except ε (Option (Bucket Q) × σ)
  end_iteration : σ → σ

/-- Modelled from the spec: §4.4 DistinctFilter (`distinct.rs` is not part of
this source snapshot) — the index's document set and each document's
distinct-field value. -/
structure DistinctCtx where
  docs : Finset ℕ
  fval : ℕ → ℕ

/-- Modelled from the spec: `distinct_single_docid` marks every *other*
indexed document sharing `docid`'s distinct-field value as excluded,
without altering `docid`. -/
def distinct_single_docid (dc : DistinctCtx) (docid : ℕ) (excluded : Finset ℕ) : Finset ℕ :=
  excluded ∪ dc.docs.filter (fun d => dc.fval d = dc.fval docid ∧ d ≠ docid)

/-- Modelled from the spec: scan candidates in ascending order, skip the
already-excluded, keep the first document of each distinct value and
accumulate its value-mates into the excluded set. -/
def applyDistinctAux (dc : DistinctCtx) :
    List ℕ → Finset ℕ → Finset ℕ → Finset ℕ × Finset ℕ
  | [], remaining, excluded => (remaining, excluded)
  | d :: rest, remaining, excluded =>
    if d ∈ excluded then applyDistinctAux dc rest remaining excluded
    else applyDistinctAux dc rest (insert d remaining) (distinct_single_docid dc d excluded)

/-- Modelled from the spec: `apply_distinct_rule(candidates) = (remaining,
excluded)`. -/
def apply_distinct_rule (dc : DistinctCtx) (candidates : Finset ℕ) :
    Finset ℕ × Finset ℕ :=
  applyDistinctAux dc (ascList candidates) ∅ ∅

/-- Search context as consumed by `bucket_sort`: the resolved distinct-field
configuration (`ctx.index.distinct_field` + `fields_ids_map().id`). -/
structure SearchCtx where
  distinct : Option DistinctCtx

/-- Trace events recording the ranking rules' lifecycle calls. -/
inductive BSEvent where
  | startIt (i : ℕ)
  | endIt (i : ℕ)
deriving DecidableEq

/-- Outcome of the driver: the results with the lifecycle trace, a
propagated error, a Rust panic (the `assert!` in `back!`), or fuel
exhaustion (model artefact). -/
inductive BSOut (ε : Type) where
  | ok (results : List ℕ) (trace : List BSEvent)
  | err (e : ε) (trace : List BSEvent)
  | panic (trace : List BSEvent)
  | fuelOut (trace : List BSEvent)
deriving DecidableEq

/-- The trace carried by any driver outcome. -/
def BSOut.trace {ε : Type} : BSOut ε → List BSEvent
  | .ok _ t => t
  | .err _ t => t
  | .panic t => t
  | .fuelOut t => t

/-- State of the driver's main loop: per-rule states, the
`ranking_rule_universes` stack (as a function of the slot index), the
current rule index, the accumulated results, the count of candidates
already considered, and the lifecycle trace. -/
structure BSSt (σ : Type) where
  states : ℕ → σ
  stack : ℕ → Finset ℕ
  cur : ℕ
  results : List ℕ
  cur_offset : ℕ
  trace : List BSEvent

/-- `maybe_add_to_results!`: apply the distinct rule first (subtracting the
excluded set from every stack slot), then either skip the whole bucket
(entirely before `from`), skip a prefix and append the rest, or append up to
the remaining page size, in ascending docid order; finally advance
`cur_offset` by the (post-distinct) candidate count. -/
def maybe_add_to_results {σ : Type} (ctx : SearchCtx) (frm length : ℕ) (cands : Finset ℕ)
    (s : BSSt σ) : BSSt σ :=
  let cs : Finset ℕ × (ℕ → Finset ℕ) :=
    match ctx.distinct with
    | some dc =>
      let rex := apply_distinct_rule dc cands
      (rex.1, fun i => s.stack i \ rex.2)
    | none => (cands, s.stack)
  let candidates := cs.1
  let len := candidates.card
  let results :=
    if candidates = ∅ then s.results
    else if s.cur_offset < frm then
      if s.cur_offset + len < frm then
        s.results
      else
        let rest := ((ascList candidates).splitAt (frm - s.cur_offset)).2
        s.results ++ rest.take (length - s.results.length)
    else
      s.results ++ (ascList candidates).take (length - s.results.length)
  { s with stack := cs.2, results := results, cur_offset := s.cur_offset + len }

/-- `back!`: assert the current slot is drained (a failed `assert!` is a
panic), release the rule's per-descent state, and either finish the search
(depth 0) or yield to the parent rule. -/
def goBack {σ ε Q : Type} (rules : ℕ → RankingRule σ ε Q) (s : BSSt σ) : BSOut ε ⊕ BSSt σ :=
  if s.stack s.cur ≠ ∅ then .inl (.panic s.trace)
  else
    let s1 : BSSt σ :=
      { s with trace := s.trace ++ [.endIt s.cur],
               stack := Function.update s.stack s.cur ∅,
               states := Function.update s.states s.cur
                 ((rules s.cur).end_iteration (s.states s.cur)) }
    if s1.cur = 0 then .inl (.ok s1.results s1.trace)
    else .inr { s1 with cur := s1.cur - 1 }

/-- The driver's main loop (fuel-indexed): stop when the page is full; a
singleton-or-empty slot is committed and popped; otherwise ask the current
rule for a bucket — `none` pops, an error aborts, and a bucket is either
committed here (last rule, tiny bucket, or bucket wholly before `from`) or
descended into after `start_iteration` on the next rule. -/
def bsLoop {σ ε Q : Type} (ctx : SearchCtx) (rules : ℕ → RankingRule σ ε Q) (n frm length : ℕ) :
    ℕ → BSSt σ → BSOut ε
  | 0, s => .fuelOut s.trace
  | fuel + 1, s =>
    if length ≤ s.results.length then .ok s.results s.trace
    else if (s.stack s.cur).card ≤ 1 then
      let s1 := maybe_add_to_results ctx frm length (s.stack s.cur) s
      let s2 := { s1 with stack := Function.update s1.stack s1.cur ∅ }
      match goBack rules s2 with
      | .inl out => out
      | .inr s3 => bsLoop ctx rules n frm length fuel s3
    else
      match (rules s.cur).next_bucket (s.states s.cur) (s.stack s.cur) with
      | .error e => .err e s.trace
      | .ok (none, st1) =>
        let s1 := { s with states := Function.update s.states s.cur st1 }
        match goBack rules s1 with
        | .inl out => out
        | .inr s2 => bsLoop ctx rules n frm length fuel s2
      | .ok (some bucket, st1) =>
        let s1 : BSSt σ :=
          { s with states := Function.update s.states s.cur st1,
                   stack := Function.update s.stack s.cur
                     (s.stack s.cur \ bucket.candidates) }
        if s1.cur = n - 1 ∨ bucket.candidates.card ≤ 1
            ∨ s1.cur_offset + bucket.candidates.card < frm then
          bsLoop ctx rules n frm length fuel
            (maybe_add_to_results ctx frm length bucket.candidates s1)
        else
          let cur1 := s1.cur + 1
          let s2 : BSSt σ :=
            { s1 with cur := cur1,
                      stack := Function.update s1.stack cur1 bucket.candidates,
                      trace := s1.trace ++ [.startIt cur1] }
          match (rules cur1).start_iteration (s2.states cur1)
              bucket.candidates bucket.query with
          | .error e => .err e s2.trace
          | .ok st2 =>
            bsLoop ctx rules n frm length fuel
              { s2 with states := Function.update s2.states cur1 st2 }

/-- The `ranking_rules.is_empty()` + distinct path of `bucket_sort`: walk the
universe in ascending order, break once `from + length` results were pushed,
skip excluded documents, and exclude each kept document's value-mates.
Note: the `from` offset is *not* skipped on this path. -/
def erdLoop (dc : DistinctCtx) (limit : ℕ) :
    List ℕ → Finset ℕ → ℕ → List ℕ
  | [], _, _ => []
  | d :: rest, excluded, cnt =>
    if limit ≤ cnt then []
    else if d ∈ excluded then erdLoop dc limit rest excluded cnt
    else d :: erdLoop dc limit rest (distinct_single_docid dc d excluded) (cnt + 1)

/-- The initial driver state after rule 0's `start_iteration` succeeded with
state `st0`. -/
def bsInit {σ : Type} (uni : Finset ℕ) (states0 : ℕ → σ) (st0 : σ) : BSSt σ :=
  { states := Function.update states0 0 st0,
    stack := fun i => if i = 0 then uni else ∅,
    cur := 0,
    results := [],
    cur_offset := 0,
    trace := [.startIt 0] }

/-- `bucket_sort`: guard `universe.len() < from`; on empty rules run the
distinct scan or plain `skip(from).take(length)`; otherwise start rule 0 and
run the main loop.  The rule list is given as a function `rules` with length
`n`; `states0` holds each rule's pre-search state. -/
def bucket_sort {σ ε Q : Type} (ctx : SearchCtx) (rules : ℕ → RankingRule σ ε Q) (n : ℕ)
    (query : Q) (uni : Finset ℕ) (frm length : ℕ) (states0 : ℕ → σ)
    (fuel : ℕ) : BSOut ε :=
  if uni.card < frm then .ok [] []
  else if n = 0 then
    match ctx.distinct with
    | some dc => .ok (erdLoop dc (frm + length) (ascList uni) ∅ 0) []
    | none => .ok (((ascList uni).drop frm).take length) []
  else
    match (rules 0).start_iteration (states0 0) uni query with
    | .error e => .err e [.startIt 0]
    | .ok st0 => bsLoop ctx rules n frm length fuel (bsInit uni states0 st0)

/-! ### Concrete fixtures for witnesses and counterexamples (Part B) -/

/-- No distinct field configured. -/
def noCtx : SearchCtx := ⟨none⟩

/-- A rule that is never consulted (used where the rule list is empty). -/
def trivRule : RankingRule Unit Unit Unit :=
  ⟨fun s _ _ => .ok s, fun s _ => .ok (none, s), id⟩

/-- Distinct configuration over documents `{0, 1}` where every document has
its own distinct value. -/
def distinctIdCtx : SearchCtx := ⟨some ⟨{0, 1}, id⟩⟩

/-- Emits the whole current universe as one bucket. -/
def fullRule : RankingRule Unit Unit Unit :=
  ⟨fun s _ _ => .ok s, fun s u => .ok (some ⟨u, ()⟩, s), id⟩

/-- Emits empty buckets forever (divergence fixture for C10). -/
def emptyBucketRule : RankingRule Unit Unit Unit :=
  ⟨fun s _ _ => .ok s, fun s _ => .ok (some ⟨∅, ()⟩, s), id⟩

/-- Always exhausted (termination fixture for C10: `next_bucket` = None). -/
def noneRule : RankingRule Unit Unit Unit :=
  ⟨fun s _ _ => .ok s, fun s _ => .ok (none, s), id⟩

/-- Emits the smallest remaining document as a singleton bucket. -/
def minRule : RankingRule Unit Unit Unit :=
  ⟨fun s _ _ => .ok s,
   fun s u => .ok (if u = ∅ then none else some ⟨{(ascList u).headD 0}, ()⟩, s), id⟩

/-- C6 fixture, first rule: emits `{0,1}` then `{2,3,4,9}` (intersected with
the current universe), then is exhausted; its state counts emitted buckets. -/
def ruleA6 : RankingRule ℕ Unit Unit :=
  ⟨fun s _ _ => .ok s,
   fun s u => .ok (if s = 0 then some ⟨{0, 1} ∩ u, ()⟩
     else if s = 1 then some ⟨{2, 3, 4, 9} ∩ u, ()⟩ else none, s + 1),
   id⟩

/-- C6 fixture, second rule: deterministic and contract-respecting, but its
state survives across descents — it counts `start_iteration` calls and emits
ascending singletons during its first descent, descending singletons later. -/
def ruleB6 : RankingRule ℕ Unit Unit :=
  ⟨fun s _ _ => .ok (s + 1),
   fun s u => .ok (if u = ∅ then none
     else if s ≤ 1 then some ⟨{(ascList u).headD 0}, ()⟩
     else some ⟨{(ascList u).getLastD 0}, ()⟩, s),
   id⟩

/-- The C6 counterexample rule list: `ruleA6` above `ruleB6`. -/
def c6rules : ℕ → RankingRule ℕ Unit Unit := fun i => if i = 0 then ruleA6 else ruleB6

/-- The bucket contract every `RankingRule` implementation must satisfy
(specification §4.5): an emitted bucket is a subset of the universe it was
asked about.  (Disjointness of successive buckets then follows from the
driver's subtraction.) -/
def RuleContract {σ ε Q : Type} (r : RankingRule σ ε Q) : Prop :=
  ∀ s u b s', r.next_bucket s u = .ok (some b, s') → b.candidates ⊆ u

/-- Number of occurrences of a lifecycle event in a trace. -/
def countEv : List BSEvent → BSEvent → ℕ
  | [], _ => 0
  | e :: t, ev => (if e = ev then 1 else 0) + countEv t ev

/-- Per-rule balance of the lifecycle trace while the loop runs: rules
`0..cur` are open (one unmatched start each), all others are closed. -/
def TraceBal (t : List BSEvent) (cur : ℕ) : Prop :=
  ∀ i, countEv t (.startIt i) = countEv t (.endIt i) + (if i ≤ cur then 1 else 0)

/-- The candidates that survive the distinct filter (the whole bucket when
no distinct field is configured). -/
def postDistinct (ctx : SearchCtx) (cands : Finset ℕ) : Finset ℕ :=
  match ctx.distinct with
  | some dc => (apply_distinct_rule dc cands).1
  | none => cands

/-- The documents excluded by the distinct filter (empty when no distinct
field is configured). -/
def postExcluded (ctx : SearchCtx) (cands : Finset ℕ) : Finset ℕ :=
  match ctx.distinct with
  | some dc => (apply_distinct_rule dc cands).2
  | none => ∅

/-- Soundness invariant of the driver loop: the page is never overfull, the
results and every stack slot draw from the universe, slots above `cur` are
empty, live slots are pairwise disjoint, and — when a distinct field is
configured — results carry pairwise distinct values and every stacked
document's value differs from every result's. -/
structure BSInv (ctx : SearchCtx) (uni : Finset ℕ) (length : ℕ) (s : BSSt σ) : Prop where
  res_len : s.results.length ≤ length
  res_mem : ∀ d ∈ s.results, d ∈ uni
  stack_sub : ∀ i, s.stack i ⊆ uni
  stale : ∀ i, s.cur < i → s.stack i = ∅
  disj : ∀ i j, i ≠ j → Disjoint (s.stack i) (s.stack j)
  dist_res : ∀ dc, ctx.distinct = some dc →
    s.results.Pairwise (fun a b => dc.fval a ≠ dc.fval b)
  dist_sep : ∀ dc, ctx.distinct = some dc →
    ∀ i, ∀ d ∈ s.stack i, ∀ r ∈ s.results, dc.fval d ≠ dc.fval r

/-- Whether a driver outcome is the model's fuel-exhaustion artefact (true
exactly when the modelled Rust loop has not finished within `fuel`
iterations). -/
def BSOut.isFuelOut {ε : Type} : BSOut ε → Bool
  | .fuelOut _ => true
  | _ => false

/-- The strengthened bucket contract under which the main loop terminates:
every emitted bucket is a *non-empty* subset of the universe it was asked
about. -/
def DrainContract {σ ε Q : Type} (r : RankingRule σ ε Q) : Prop :=
  ∀ s u b s', r.next_bucket s u = .ok (some b, s') →
    b.candidates ⊆ u ∧ b.candidates.Nonempty

/-- Weighted size of the slot stack: slot `i` counts with weight `2^(n-i)`,
so that moving a bucket one level deeper strictly shrinks the sum. -/
def Wsum (n : ℕ) (g : ℕ → Finset ℕ) : ℕ :=
  (Finset.range n).sum fun i => (g i).card * 2 ^ (n - i)

/-- Termination measure for the main loop: weighted stack size plus the
current depth. -/
def bsMeasure {σ : Type} (n : ℕ) (s : BSSt σ) : ℕ :=
  Wsum n s.stack + s.cur

/-- The idealized full flattening of the driver's traversal for *stateless*
rules (`σ = Unit`): the sequence of documents the main loop would commit
from rule `i` on slot universe `u`, with no `from`/`length` cut-offs.
Derived from the source loop: a `≤ 1`-element universe is committed in
ascending order; otherwise the next bucket is either refined by the next
rule or committed in ascending order (last rule or tiny bucket), and the
loop continues on the remainder of the slot. -/
def flattenL {ε Q : Type} (rules : ℕ → RankingRule Unit ε Q) (n : ℕ)
    (i : ℕ) (u : Finset ℕ) : List ℕ :=
  if u.card ≤ 1 then ascList u
  else
    match (rules i).next_bucket () u with
    | .error _ => []
    | .ok (none, _) => []
    | .ok (some b, _) =>
      if h3 : b.candidates ⊆ u ∧ b.candidates.Nonempty ∧ i < n then
        (if i = n - 1 ∨ b.candidates.card ≤ 1 then ascList b.candidates
         else flattenL rules n (i + 1) b.candidates) ++
        flattenL rules n i (u \ b.candidates)
      else []
termination_by u.card * n + (n - i)
decreasing_by
  · have h1 : b.candidates.card ≤ u.card := Finset.card_le_card h3.1
    have h2 : i < n := h3.2.2
    exact Nat.add_lt_add_of_le_of_lt (Nat.mul_le_mul_right n h1) (by omega)
  · have h0 : 0 < n := by
      have := h3.2.2
      omega
    have h1 : (u \ b.candidates).card < u.card :=
      Finset.card_lt_card (Finset.sdiff_ssubset h3.1 h3.2.1)
    exact Nat.add_lt_add_right (Nat.mul_lt_mul_of_pos_right h1 h0) _

/-- The pending emission of the stack slots strictly below level `c`,
deepest first. -/
def pendBelow {ε Q : Type} (rules : ℕ → RankingRule Unit ε Q) (n : ℕ)
    (stack : ℕ → Finset ℕ) : ℕ → List ℕ
  | 0 => []
  | c + 1 => flattenL rules n c (stack c) ++ pendBelow rules n stack c

/-! ### Basic lemmas about the path semantics -/

section ResolveProofs

variable {st : Store} {g : QueryGraph} {uni : Finset ℕ} {e : ℕ} {topo : ℕ → ℕ}
variable {doc : ℕ} {s : RState}

theorem mem_ascList {t : Finset ℕ} {x : ℕ} : x ∈ ascList t ↔ x ∈ t := by
  unfold ascList
  rw [List.mem_filter]
  constructor
  · rintro ⟨-, h⟩
    simpa using h
  · intro h
    refine ⟨?_, by simpa⟩
    rw [List.mem_range]
    exact Nat.lt_succ_of_le (Finset.le_sup (f := id) h)

theorem Reaches.mem_uni {n : ℕ} (h : Reaches st g uni doc n) : doc ∈ uni := by
  induction h with
  | root h _ => exact h
  | step _ _ _ ih => exact ih

theorem Reaches.lt (wf : WFGraph g e topo) {n : ℕ} (h : Reaches st g uni doc n) :
    n < g.nodes.length := by
  induction h with
  | root _ _ => exact wf.root_lt
  | step _ hs _ ih => exact wf.succ_lt _ ih _ hs

theorem nodeOk_of_start {n : ℕ} (h : nodeKind g n = .start) : nodeOk st g doc n := by
  intro t ht; rw [h] at ht; cases ht

theorem nodeOk_of_endNode {n : ℕ} (h : nodeKind g n = .endNode) : nodeOk st g doc n := by
  intro t ht; rw [h] at ht; cases ht

theorem reaches_root_iff (wf : WFGraph g e topo) :
    Reaches st g uni doc g.root_node ↔ doc ∈ uni := by
  constructor
  · exact Reaches.mem_uni
  · intro h
    exact Reaches.root h (nodeOk_of_start wf.root_start)

theorem not_step_to_root (wf : WFGraph g e topo) {u : ℕ} (hu : u < g.nodes.length)
    (hs : isStep g u g.root_node) : False := by
  have := (wf.symm u hu g.root_node wf.root_lt).mp hs
  rw [wf.root_no_preds] at this
  exact absurd this (Finset.not_mem_empty u)

theorem reaches_step_iff (wf : WFGraph g e topo) {n : ℕ} (hn : n < g.nodes.length)
    (hnr : n ≠ g.root_node) :
    Reaches st g uni doc n ↔
      (∃ p ∈ predsOf g n, Reaches st g uni doc p) ∧ nodeOk st g doc n := by
  constructor
  · intro h
    cases h with
    | root _ hok => exact absurd rfl hnr
    | step hr hs hok =>
      refine ⟨⟨_, ?_, hr⟩, hok⟩
      exact (wf.symm _ (hr.lt wf) n hn).mp hs
  · rintro ⟨⟨p, hp, hr⟩, hok⟩
    have hplt : p < g.nodes.length := wf.pred_lt n hn p hp
    exact hr.step ((wf.symm p hplt n hn).mpr hp) hok

theorem reaches_to_path {n : ℕ} (h : Reaches st g uni doc n) :
    ∃ l, okPath st g doc l ∧ l.getLast? = some n := by
  induction h with
  | root hu hok => exact ⟨[g.root_node], ⟨rfl, List.chain'_singleton _, by simpa⟩, rfl⟩
  | @step u v hr hs hok ih =>
    obtain ⟨l, ⟨hhead, hchain, hok'⟩, hlast⟩ := ih
    have hne : l ≠ [] := by rintro rfl; cases hlast
    refine ⟨l ++ [v], ⟨?_, ?_, ?_⟩, ?_⟩
    · rwa [List.head?_append_of_ne_nil _ hne]
    · refine List.Chain'.append hchain (List.chain'_singleton _) ?_
      intro x hx y hy
      rw [hlast] at hx
      cases hx; cases hy
      exact hs
    · intro m hm
      rcases List.mem_append.mp hm with hm | hm
      · exact hok' m hm
      · rcases List.mem_singleton.mp hm with rfl; exact hok
    · rw [List.getLast?_append_of_ne_nil _ (by simp)]; rfl

theorem path_to_reaches (hu : doc ∈ uni) :
    ∀ (l : List ℕ) (n : ℕ), okPath st g doc l → l.getLast? = some n →
      Reaches st g uni doc n := by
  intro l
  induction l using List.reverseRecOn with
  | nil => intro n _ hlast; cases hlast
  | append_singleton l a ih =>
    intro n hpath hlast
    obtain ⟨hhead, hchain, hok⟩ := hpath
    have ha : a = n := by
      rw [List.getLast?_append_of_ne_nil _ (by simp)] at hlast
      simpa using hlast
    subst ha
    rcases List.eq_nil_or_concat l with rfl | ⟨l', b, rfl⟩
    · have : a = g.root_node := by simpa using hhead
      subst this
      exact Reaches.root hu (hok _ (List.mem_singleton_self _))
    · rw [List.concat_eq_append] at *
      rw [List.chain'_append] at hchain
      obtain ⟨hchain1, -, hstep⟩ := hchain
      have hb : ((l' ++ [b]).getLast? = some b) := by
        rw [List.getLast?_append_of_ne_nil _ (by simp)]; rfl
      have hrb : Reaches st g uni doc b := by
        refine ih b ⟨?_, hchain1, ?_⟩ hb
        · rwa [List.head?_append_of_ne_nil _ (by simp)] at hhead
        · intro m hm
          refine hok m ?_
          rcases List.mem_append.mp hm with hm | hm
          · exact List.mem_append.mpr (.inl (List.mem_append.mpr (.inl hm)))
          · exact List.mem_append.mpr (.inl (List.mem_append.mpr (.inr hm)))
      refine hrb.step ?_ (hok a (by simp))
      have := hstep b (by rw [hb]; rfl) a rfl
      exact this

/-- The inductive acceptance relation coincides with the specification's
explicit-path formulation. -/
theorem reaches_iff_path {n : ℕ} :
    Reaches st g uni doc n ↔
      (doc ∈ uni ∧ ∃ l, okPath st g doc l ∧ l.getLast? = some n) := by
  constructor
  · intro h
    exact ⟨h.mem_uni, reaches_to_path h⟩
  · rintro ⟨hu, l, hpath, hlast⟩
    exact path_to_reaches hu l n hpath hlast

/-! ### Helper lemmas about the loop's queue and bitmap-array updates -/

theorem set_getD (pd : List (Finset ℕ)) (i j : ℕ) (v : Finset ℕ) :
    (pd.set i v).getD j ∅ =
      if j = i ∧ i < pd.length then v else pd.getD j ∅ := by
  rw [List.getD_eq_getElem?_getD, List.getD_eq_getElem?_getD]
  by_cases h : j = i ∧ i < pd.length
  · obtain ⟨rfl, hlt⟩ := h
    rw [if_pos ⟨rfl, hlt⟩, List.getElem?_set_eq_of_lt v hlt]
    rfl
  · rw [if_neg h]
    by_cases hj : j = i
    · subst hj
      have hge : pd.length ≤ j := by
        rcases Nat.lt_or_ge j pd.length with h1 | h1
        · exact absurd ⟨rfl, h1⟩ h
        · exact h1
      rw [List.getElem?_eq_none (by simpa using hge),
        List.getElem?_eq_none (by simpa using hge)]
    · rw [List.getElem?_set_ne fun hh => hj hh.symm]

theorem clearFold_getD (C : ℕ → Prop) [DecidablePred C] (i : ℕ) :
    ∀ (l : List ℕ) (pd : List (Finset ℕ)),
      (l.foldl (fun pd p => if C p then pd.set p ∅ else pd) pd).getD i ∅ =
        if i ∈ l ∧ C i then ∅ else pd.getD i ∅ := by
  intro l
  induction l with
  | nil => intro pd; simp
  | cons a l ih =>
    intro pd
    rw [List.foldl_cons, ih]
    by_cases hil : i ∈ l ∧ C i
    · rw [if_pos hil, if_pos ⟨List.mem_cons_of_mem a hil.1, hil.2⟩]
    · rw [if_neg hil]
      by_cases hia : i = a
      · subst hia
        by_cases hC : C i
        · rw [if_pos hC, if_pos ⟨List.mem_cons_self i l, hC⟩, set_getD]
          by_cases hlt : i < pd.length
          · rw [if_pos ⟨rfl, hlt⟩]
          · rw [if_neg (by tauto), List.getD_eq_getElem?_getD,
              List.getElem?_eq_none (by simpa using Nat.le_of_not_lt hlt)]
            rfl
        · rw [if_neg hC, if_neg (by tauto)]
      · have : ¬ (i ∈ a :: l ∧ C i) := by
          rintro ⟨hm, hC⟩
          rcases List.mem_cons.mp hm with rfl | hm
          · exact hia rfl
          · exact hil ⟨hm, hC⟩
        rw [if_neg this]
        by_cases hC : C a
        · rw [if_pos hC, set_getD, if_neg (by tauto)]
        · rw [if_neg hC]

theorem clearFold_length (C : ℕ → Prop) [DecidablePred C] :
    ∀ (l : List ℕ) (pd : List (Finset ℕ)),
      (l.foldl (fun pd p => if C p then pd.set p ∅ else pd) pd).length = pd.length := by
  intro l
  induction l with
  | nil => intro pd; rfl
  | cons a l ih =>
    intro pd
    rw [List.foldl_cons, ih]
    by_cases hC : C a
    · rw [if_pos hC, List.length_set]
    · rw [if_neg hC]

/-- Pointwise description of `clearDonePreds`. -/
theorem clearDonePreds_getD (g : QueryGraph) (node : ℕ) (resolved : Finset ℕ)
    (pd : List (Finset ℕ)) (i : ℕ) :
    (clearDonePreds g node resolved pd).getD i ∅ =
      if i ∈ predsOf g node ∧ succsOf g i ⊆ resolved then ∅ else pd.getD i ∅ := by
  unfold clearDonePreds
  rw [clearFold_getD]
  by_cases h : i ∈ predsOf g node ∧ succsOf g i ⊆ resolved
  · rw [if_pos h, if_pos ⟨mem_ascList.mpr h.1, h.2⟩]
  · rw [if_neg h, if_neg (by rw [mem_ascList]; exact h)]

theorem clearDonePreds_length (g : QueryGraph) (node : ℕ) (resolved : Finset ℕ)
    (pd : List (Finset ℕ)) :
    (clearDonePreds g node resolved pd).length = pd.length :=
  clearFold_length _ _ pd

theorem enqueue_mem_of_mem {R : Finset ℕ} {x : ℕ} :
    ∀ (l : List ℕ) (q : List ℕ), x ∈ q →
      x ∈ l.foldl (fun q s => if s ∈ q ∨ s ∈ R then q else q ++ [s]) q := by
  intro l
  induction l with
  | nil => intro q h; exact h
  | cons a l ih =>
    intro q h
    rw [List.foldl_cons]
    refine ih _ ?_
    by_cases hc : a ∈ q ∨ a ∈ R
    · rw [if_pos hc]; exact h
    · rw [if_neg hc]; exact List.mem_append.mpr (.inl h)

theorem enqueue_mem_out {R : Finset ℕ} {x : ℕ} :
    ∀ (l : List ℕ) (q : List ℕ),
      x ∈ l.foldl (fun q s => if s ∈ q ∨ s ∈ R then q else q ++ [s]) q →
      x ∈ q ∨ (x ∈ l ∧ x ∉ R) := by
  intro l
  induction l with
  | nil => intro q h; exact .inl h
  | cons a l ih =>
    intro q h
    rw [List.foldl_cons] at h
    rcases ih _ h with h1 | h1
    · by_cases hc : a ∈ q ∨ a ∈ R
      · rw [if_pos hc] at h1; exact .inl h1
      · rw [if_neg hc] at h1
        rcases List.mem_append.mp h1 with h2 | h2
        · exact .inl h2
        · rcases List.mem_singleton.mp h2 with rfl
          exact .inr ⟨List.mem_cons_self _ _, fun hr => hc (.inr hr)⟩
    · exact .inr ⟨List.mem_cons_of_mem a h1.1, h1.2⟩

theorem enqueue_mem_of_mem_list {R : Finset ℕ} {x : ℕ} :
    ∀ (l : List ℕ) (q : List ℕ), x ∈ l →
      x ∈ l.foldl (fun q s => if s ∈ q ∨ s ∈ R then q else q ++ [s]) q ∨ x ∈ R := by
  intro l
  induction l with
  | nil => intro q h; cases h
  | cons a l ih =>
    intro q h
    rcases List.mem_cons.mp h with rfl | h
    · by_cases hr : x ∈ R
      · exact .inr hr
      · refine .inl ?_
        rw [List.foldl_cons]
        by_cases hq : x ∈ q ∨ x ∈ R
        · rw [if_pos hq]
          exact enqueue_mem_of_mem l q (hq.resolve_right hr)
        · rw [if_neg hq]
          exact enqueue_mem_of_mem l _ (List.mem_append.mpr (.inr (List.mem_singleton_self x)))
    · exact ih _ h

theorem enqueue_nodup {R : Finset ℕ} :
    ∀ (l : List ℕ) (q : List ℕ), q.Nodup →
      (l.foldl (fun q s => if s ∈ q ∨ s ∈ R then q else q ++ [s]) q).Nodup := by
  intro l
  induction l with
  | nil => intro q h; exact h
  | cons a l ih =>
    intro q h
    rw [List.foldl_cons]
    refine ih _ ?_
    by_cases hc : a ∈ q ∨ a ∈ R
    · rw [if_pos hc]; exact h
    · rw [if_neg hc]
      have ha : a ∉ q := fun hq => hc (.inl hq)
      simpa [List.nodup_append] using ⟨h, ha⟩

/-! ### The resolver-loop invariant -/

theorem no_self_pred (wf : WFGraph g e topo) {n : ℕ} (hn : n < g.nodes.length) :
    n ∉ predsOf g n := by
  intro h
  have hs : n ∈ succsOf g n := (wf.symm n hn n hn).mpr h
  exact absurd (wf.topo_lt n hn n hs) (lt_irrefl _)

theorem Inv.initial (wf : WFGraph g e topo) (cache : NodeCache)
    (hcache : ∀ n b, cache n = some b → ∃ t, nodeKind g n = .term t ∧ b = termDocids st t) :
    Inv st g uni e (initState g cache) := by
  unfold initState
  refine ⟨?_, ?_, ?_, ?_, ?_, ?_, ?_, ?_, ?_, ?_⟩
  · exact List.length_replicate _ _
  · intro n hn
    rcases List.mem_singleton.mp hn with rfl
    exact wf.root_lt
  · exact List.nodup_singleton _
  · intro n _ h
    exact absurd h (Finset.not_mem_empty n)
  · intro n h
    exact absurd h (Finset.not_mem_empty n)
  · exact Finset.not_mem_empty e
  · intro n _
    rcases Nat.lt_or_ge n g.nodes.length with h | h
    · rw [List.getD_eq_getElem?_getD, List.getElem?_replicate, if_pos (by simpa using h)]
      rfl
    · rw [List.getD_eq_getElem?_getD,
        List.getElem?_eq_none (by simpa using h)]
      rfl
  · intro n hn
    exact absurd hn (Finset.not_mem_empty n)
  · exact hcache
  · intro v hv hp
    by_cases hr : v = g.root_node
    · subst hr; exact .inr (List.mem_singleton_self _)
    · obtain ⟨p, hpm⟩ := wf.preds_nonempty v hv hr
      exact absurd (hp hpm) (Finset.not_mem_empty p)

theorem Inv.rotate (hInv : Inv st g uni e s) {node : ℕ} {rest : List ℕ}
    (hq : s.queue = node :: rest) :
    Inv st g uni e { s with queue := rest ++ [node] } := by
  have hmem : ∀ x, x ∈ rest ++ [node] ↔ x ∈ s.queue := by
    intro x; rw [hq]; simp [or_comm]
  refine ⟨hInv.pd_len, ?_, ?_, ?_, hInv.resolved_lt, hInv.end_unresolved,
    hInv.pd_unresolved, hInv.pd_sem, hInv.cache_ok, ?_⟩
  · intro n hn; exact hInv.queue_lt n ((hmem n).mp hn)
  · have := hInv.queue_nodup
    rw [hq] at this
    simp only [List.nodup_cons] at this
    simp only [List.nodup_append, List.nodup_singleton, true_and]
    refine ⟨this.2, ?_⟩
    intro a ha hb
    rcases List.mem_singleton.mp hb with rfl
    exact this.1 ha
  · intro n hn; exact hInv.queue_unresolved n ((hmem n).mp hn)
  · intro v hv hp
    rcases hInv.fringe v hv hp with h | h
    · exact .inl h
    · exact .inr ((hmem v).mpr h)

/-- Under the invariant, the union of the predecessors' path bitmaps of a
ready unresolved node is exactly "reaches some predecessor". -/
theorem predUnion_sem (wf : WFGraph g e topo) (hInv : Inv st g uni e s)
    {node : ℕ} (hnode : node < g.nodes.length) (hunres : node ∉ s.resolved)
    (hready : predsOf g node ⊆ s.resolved) (d : ℕ) :
    d ∈ predUnion s.pathDocids (predsOf g node) ↔
      ∃ p ∈ predsOf g node, Reaches st g uni d p := by
  unfold predUnion
  rw [Finset.mem_sup]
  have key : ∀ p ∈ predsOf g node, (d ∈ s.pathDocids.getD p ∅ ↔ Reaches st g uni d p) := by
    intro p hp
    have hplt : p < g.nodes.length := wf.pred_lt node hnode p hp
    refine hInv.pd_sem p (hready hp) ?_ d
    intro hsub
    have hns : node ∈ succsOf g p := (wf.symm p hplt node hnode).mpr hp
    exact hunres (hsub hns)
  constructor
  · rintro ⟨p, hp, hd⟩
    exact ⟨p, hp, (key p hp).mp hd⟩
  · rintro ⟨p, hp, hr⟩
    exact ⟨p, hp, (key p hp).mpr hr⟩

/-- The loop invariant is preserved by resolving a ready node whose kind is
not End, provided the stored bitmap is semantically exact and the new cache
is still correct. -/
theorem Inv.finish (wf : WFGraph g e topo) (hInv : Inv st g uni e s)
    {node : ℕ} {rest : List ℕ} (hq : s.queue = node :: rest)
    (hkind : nodeKind g node ≠ .endNode)
    {v : Finset ℕ} (hval : ∀ d, d ∈ v ↔ Reaches st g uni d node)
    {c : NodeCache}
    (hc : ∀ n b, c n = some b → ∃ t, nodeKind g n = .term t ∧ b = termDocids st t) :
    Inv st g uni e (resolveFinish g node v rest s c) := by
  have hnodeq : node ∈ s.queue := by rw [hq]; exact List.mem_cons_self _ _
  have hnlt : node < g.nodes.length := hInv.queue_lt node hnodeq
  have hnunres : node ∉ s.resolved := hInv.queue_unresolved node hnodeq
  have hrestd : node ∉ rest ∧ rest.Nodup := by
    have := hInv.queue_nodup
    rw [hq, List.nodup_cons] at this
    exact this
  have hne : node ≠ e := fun h => hkind (h ▸ wf.end_kind)
  simp only [resolveFinish]
  refine ⟨?_, ?_, ?_, ?_, ?_, ?_, ?_, ?_, hc, ?_⟩
  · rw [clearDonePreds_length, List.length_set, hInv.pd_len]
  · intro n hn
    rcases enqueue_mem_out _ _ hn with h | h
    · exact hInv.queue_lt n (by rw [hq]; exact List.mem_cons_of_mem _ h)
    · exact wf.succ_lt node hnlt n (mem_ascList.mp h.1)
  · exact enqueue_nodup _ _ hrestd.2
  · intro n hn
    rcases enqueue_mem_out _ _ hn with h | h
    · intro hmem
      rcases Finset.mem_insert.mp hmem with rfl | hmem
      · exact hrestd.1 h
      · exact hInv.queue_unresolved n (by rw [hq]; exact List.mem_cons_of_mem _ h) hmem
    · exact h.2
  · intro n hn
    rcases Finset.mem_insert.mp hn with rfl | hn
    · exact hnlt
    · exact hInv.resolved_lt n hn
  · intro hmem
    rcases Finset.mem_insert.mp hmem with h | h
    · exact hne h.symm
    · exact hInv.end_unresolved h
  · intro n hn
    have hnn : n ≠ node := fun h => hn (h ▸ Finset.mem_insert_self _ _)
    have hold : n ∉ s.resolved := fun h => hn (Finset.mem_insert_of_mem h)
    rw [clearDonePreds_getD]
    by_cases hcond : n ∈ predsOf g node ∧ succsOf g n ⊆ insert node s.resolved
    · rw [if_pos hcond]
    · rw [if_neg hcond, set_getD, if_neg (by tauto), hInv.pd_unresolved n hold]
  · intro n hn hsucc d
    rw [clearDonePreds_getD, if_neg (by rintro ⟨-, h⟩; exact hsucc h)]
    rcases Finset.mem_insert.mp hn with rfl | hn
    · rw [set_getD, if_pos ⟨rfl, by rw [hInv.pd_len]; exact hnlt⟩]
      exact hval d
    · have hnn : n ≠ node := fun h => hnunres (h ▸ hn)
      rw [set_getD, if_neg (by tauto)]
      refine hInv.pd_sem n hn ?_ d
      intro hsub
      exact hsucc (hsub.trans (Finset.subset_insert _ _))
  · intro w hw hp
    by_cases hmem : node ∈ predsOf g w
    · have hws : w ∈ succsOf g node := (wf.symm node hnlt w hw).mpr hmem
      have hwl : w ∈ ascList (succsOf g node) := mem_ascList.mpr hws
      rcases enqueue_mem_of_mem_list (R := insert node s.resolved) _ rest hwl with h | h
      · exact .inr h
      · exact .inl h
    · have hsub : predsOf g w ⊆ s.resolved := by
        intro p hpm
        rcases Finset.mem_insert.mp (hp hpm) with rfl | h
        · exact absurd hpm hmem
        · exact h
      rcases hInv.fringe w hw hsub with h | h
      · exact .inl (Finset.mem_insert_of_mem h)
      · rw [hq] at h
        rcases List.mem_cons.mp h with rfl | h
        · exact .inl (Finset.mem_insert_self _ _)
        · exact .inr (enqueue_mem_of_mem _ _ h)

theorem getDocids_cached {cache : NodeCache} {i : ℕ} {b : Finset ℕ} {t : QueryTerm}
    (h : cache i = some b) : getDocids st cache t i = .ok (b, cache) := by
  unfold getDocids
  rw [h]

theorem getDocids_phrase {cache : NodeCache} {i : ℕ} {p : List String}
    (h : cache i = none) : getDocids st cache (.phrase p) i = .panic .todoPhrase := by
  unfold getDocids
  rw [h]

theorem getDocids_word {cache : NodeCache} {i : ℕ} {der : WordDerivations}
    (h : cache i = none) :
    getDocids st cache (.word der) i =
      .ok (wordDerivationsDocids st der,
        Function.update cache i (some (wordDerivationsDocids st der))) := by
  unfold getDocids
  rw [h]

theorem nodeOk_term_iff {n : ℕ} {t : QueryTerm} (hk : nodeKind g n = .term t) (d : ℕ) :
    nodeOk st g d n ↔ d ∈ termDocids st t := by
  constructor
  · intro h; exact h t hk
  · intro h t' ht'
    rw [hk] at ht'
    cases ht'
    exact h

theorem end_ne_root (wf : WFGraph g e topo) : e ≠ g.root_node := by
  intro h
  have := wf.end_kind
  rw [h, wf.root_start] at this
  cases this

/-- If the work loop returns a bitmap then, under the invariant, that bitmap
is exactly the set of documents that reach the End node. -/
theorem resolveLoop_ok_sem (wf : WFGraph g e topo) :
    ∀ (fuel : ℕ) (s : RState), Inv st g uni e s →
      ∀ b, resolveLoop st g uni fuel s = .ok b →
        ∀ d, d ∈ b ↔ Reaches st g uni d e := by
  intro fuel
  induction fuel with
  | zero =>
    intro s _ b h
    simp [resolveLoop] at h
  | succ fuel ih =>
    intro s hInv b hok d
    rcases hq : s.queue with _ | ⟨node, rest⟩
    · rw [resolveLoop, hq] at hok
      cases hok
    · rw [resolveLoop, hq] at hok
      dsimp only at hok
      by_cases hready : predsOf g node ⊆ s.resolved
      swap
      · rw [if_pos hready] at hok
        exact ih _ (hInv.rotate hq) b hok d
      · rw [if_neg (not_not_intro hready)] at hok
        have hnlt : node < g.nodes.length :=
          hInv.queue_lt node (by rw [hq]; exact List.mem_cons_self _ _)
        have hnunres : node ∉ s.resolved :=
          hInv.queue_unresolved node (by rw [hq]; exact List.mem_cons_self _ _)
        rcases hk : nodeKind g node with t | _ | _ | _
        · -- Term node
          rw [hk] at hok
          dsimp only at hok
          rcases hcac : s.cache node with _ | b0
          · rcases t with p | der
            · rw [getDocids_phrase hcac] at hok
              cases hok
            · rw [getDocids_word hcac] at hok
              refine ih _ (hInv.finish wf hq (by rw [hk]; simp) ?_ ?_) b hok d
              · intro d'
                rw [Finset.mem_inter, predUnion_sem wf hInv hnlt hnunres hready,
                  reaches_step_iff wf hnlt
                    (fun h => by rw [h, wf.root_start] at hk; cases hk),
                  nodeOk_term_iff hk]
                rfl
              · intro n b1 h1
                by_cases hn : n = node
                · subst hn
                  rw [Function.update_same] at h1
                  cases h1
                  exact ⟨.word der, hk, rfl⟩
                · rw [Function.update_noteq hn] at h1
                  exact hInv.cache_ok n b1 h1
          · rw [getDocids_cached hcac] at hok
            obtain ⟨t', ht', hb0⟩ := hInv.cache_ok node b0 hcac
            rw [hk] at ht'
            cases ht'
            subst hb0
            refine ih _ (hInv.finish wf hq (by rw [hk]; simp) ?_ hInv.cache_ok) b hok d
            intro d'
            rw [Finset.mem_inter, predUnion_sem wf hInv hnlt hnunres hready,
              reaches_step_iff wf hnlt
                (fun h => by rw [h, wf.root_start] at hk; cases hk),
              nodeOk_term_iff hk]
        · -- Deleted node
          rw [hk] at hok
          dsimp only at hok
          cases hok
        · -- Start node
          rw [hk] at hok
          dsimp only at hok
          have hroot : node = g.root_node := wf.start_unique node hnlt hk
          subst hroot
          refine ih _ (hInv.finish wf hq (by rw [hk]; simp) ?_ hInv.cache_ok) b hok d
          intro d'
          exact (reaches_root_iff wf).symm
        · -- End node
          rw [hk] at hok
          dsimp only at hok
          cases hok
          have hend : node = e := wf.end_unique node hnlt hk
          subst hend
          rw [predUnion_sem wf hInv hnlt hnunres hready,
            reaches_step_iff wf hnlt (Ne.symm (end_ne_root wf)).symm]
          have : nodeOk st g d node := nodeOk_of_endNode hk
          tauto

/-! ### Termination of the resolver on well-formed graphs -/

theorem term_value_sem (wf : WFGraph g e topo) (hInv : Inv st g uni e s)
    {node : ℕ} (hnlt : node < g.nodes.length) (hnunres : node ∉ s.resolved)
    (hready : predsOf g node ⊆ s.resolved) {t : QueryTerm}
    (hk : nodeKind g node = .term t) (d : ℕ) :
    d ∈ predUnion s.pathDocids (predsOf g node) ∩ termDocids st t ↔
      Reaches st g uni d node := by
  rw [Finset.mem_inter, predUnion_sem wf hInv hnlt hnunres hready,
    reaches_step_iff wf hnlt (fun h => by rw [h, wf.root_start] at hk; cases hk),
    nodeOk_term_iff hk]

/-- While the End node is unresolved, some queued node is ready: the
topologically smallest unresolved node has all predecessors resolved and the
fringe invariant places it in the queue. -/
theorem exists_ready (wf : WFGraph g e topo) (hInv : Inv st g uni e s) :
    ∃ n ∈ s.queue, predsOf g n ⊆ s.resolved := by
  classical
  set S := (Finset.range g.nodes.length).filter (fun v => v ∉ s.resolved) with hS
  have heS : e ∈ S := by
    rw [hS, Finset.mem_filter, Finset.mem_range]
    exact ⟨wf.end_lt, hInv.end_unresolved⟩
  obtain ⟨m, hmS, hmin⟩ := S.exists_min_image topo ⟨e, heS⟩
  rw [hS, Finset.mem_filter, Finset.mem_range] at hmS
  have hpm : predsOf g m ⊆ s.resolved := by
    intro p hp
    by_contra hpu
    have hplt : p < g.nodes.length := wf.pred_lt m hmS.1 p hp
    have hpS : p ∈ S := by
      rw [hS, Finset.mem_filter, Finset.mem_range]; exact ⟨hplt, hpu⟩
    have h1 : topo m ≤ topo p := hmin p hpS
    have h2 : topo p < topo m :=
      wf.topo_lt p hplt m ((wf.symm p hplt m hmS.1).mpr hp)
    exact absurd h1 (not_le_of_lt h2)
  rcases hInv.fringe m hmS.1 hpm with h | h
  · exact absurd h hmS.2
  · exact ⟨m, h, hpm⟩

theorem findIdx_append_of_exists {p : ℕ → Bool} :
    ∀ (l l' : List ℕ), (∃ x ∈ l, p x = true) →
      (l ++ l').findIdx p = l.findIdx p := by
  intro l
  induction l with
  | nil => rintro l' ⟨x, hx, -⟩; cases hx
  | cons a l ih =>
    rintro l' ⟨x, hx, hpx⟩
    rw [List.cons_append, List.findIdx_cons, List.findIdx_cons,
      cond_eq_if, cond_eq_if]
    by_cases hpa : p a
    · rw [if_pos hpa, if_pos hpa]
    · rw [if_neg hpa, if_neg hpa]
      rcases List.mem_cons.mp hx with rfl | hx
    -- x = a contradicts ¬ p a
      · exact absurd hpx (by simpa using hpa)
      · rw [ih l' ⟨x, hx, hpx⟩]

theorem queue_length_le (hInv : Inv st g uni e s) : s.queue.length ≤ g.nodes.length := by
  have h1 : s.queue.toFinset.card = s.queue.length :=
    List.toFinset_card_of_nodup hInv.queue_nodup
  have h2 : s.queue.toFinset ⊆ Finset.range g.nodes.length := by
    intro x hx
    rw [Finset.mem_range]
    exact hInv.queue_lt x (List.mem_toFinset.mp hx)
  calc s.queue.length = s.queue.toFinset.card := h1.symm
    _ ≤ (Finset.range g.nodes.length).card := Finset.card_le_card h2
    _ = g.nodes.length := Finset.card_range _

theorem resolved_card_lt (hInv : Inv st g uni e s) (wf : WFGraph g e topo) :
    s.resolved.card < g.nodes.length := by
  have hsub : s.resolved ⊆ Finset.range g.nodes.length := by
    intro x hx; rw [Finset.mem_range]; exact hInv.resolved_lt x hx
  have hss : s.resolved ⊂ Finset.range g.nodes.length := by
    refine ⟨hsub, fun hsup => ?_⟩
    exact hInv.end_unresolved (hsup (Finset.mem_range.mpr wf.end_lt))
  calc s.resolved.card < (Finset.range g.nodes.length).card := Finset.card_lt_card hss
    _ = g.nodes.length := Finset.card_range _

/-- On a well-formed (phrase-free) graph, the work loop returns a bitmap
once given at least `rMeasure` fuel. -/
theorem resolveLoop_terminates (wf : WFGraph g e topo) :
    ∀ (fuel : ℕ) (s : RState), Inv st g uni e s → rMeasure g s < fuel →
      ∃ b, resolveLoop st g uni fuel s = .ok b := by
  intro fuel
  induction fuel with
  | zero => intro s _ h; exact absurd h (Nat.not_lt_zero _)
  | succ fuel ih =>
    intro s hInv hμ
    obtain ⟨r, hrq, hrready⟩ := exists_ready wf hInv
    rcases hq : s.queue with _ | ⟨node, rest⟩
    · rw [hq] at hrq; cases hrq
    · rw [resolveLoop, hq]
      dsimp only
      have hnlt : node < g.nodes.length :=
        hInv.queue_lt node (by rw [hq]; exact List.mem_cons_self _ _)
      have hnunres : node ∉ s.resolved :=
        hInv.queue_unresolved node (by rw [hq]; exact List.mem_cons_self _ _)
      by_cases hready : predsOf g node ⊆ s.resolved
      swap
      · rw [if_pos hready]
        refine ih _ (hInv.rotate hq) ?_
        have hrrest : r ∈ rest := by
          rw [hq] at hrq
          rcases List.mem_cons.mp hrq with rfl | h
          · exact absurd hrready hready
          · exact h
        have hex : ∃ x ∈ rest, (fun n => decide (predsOf g n ⊆ s.resolved)) x = true :=
          ⟨r, hrrest, by simpa using hrready⟩
        have hfi : (rest ++ [node]).findIdx
            (fun n => decide (predsOf g n ⊆ s.resolved)) =
            rest.findIdx (fun n => decide (predsOf g n ⊆ s.resolved)) :=
          findIdx_append_of_exists _ _ hex
        have hfc : (node :: rest).findIdx
            (fun n => decide (predsOf g n ⊆ s.resolved)) =
            rest.findIdx (fun n => decide (predsOf g n ⊆ s.resolved)) + 1 := by
          rw [List.findIdx_cons, cond_eq_if, if_neg (by simpa using hready)]
        have : rMeasure g { s with queue := rest ++ [node] } + 1 = rMeasure g s := by
          unfold rMeasure
          dsimp only
          rw [hfi, hq, hfc]
          ring
        omega
      · rw [if_neg (not_not_intro hready)]
        -- measure decreases whenever a node is resolved
        have hdec : ∀ (v : Finset ℕ) (c : NodeCache),
            Inv st g uni e (resolveFinish g node v rest s c) →
            rMeasure g (resolveFinish g node v rest s c) < fuel := by
          intro v c hInv'
          have hcard : (resolveFinish g node v rest s c).resolved.card
              = s.resolved.card + 1 := by
            simp only [resolveFinish]
            rw [Finset.card_insert_of_not_mem hnunres]
          have hclt : s.resolved.card < g.nodes.length := resolved_card_lt hInv wf
          have hidx : (resolveFinish g node v rest s c).queue.findIdx
              (fun n => decide (predsOf g n ⊆ (resolveFinish g node v rest s c).resolved))
              ≤ g.nodes.length := by
            calc _ ≤ (resolveFinish g node v rest s c).queue.length :=
                  List.findIdx_le_length _
              _ ≤ g.nodes.length := queue_length_le hInv'
          have hbase : (g.nodes.length - (s.resolved.card + 1)) * (g.nodes.length + 1)
              + (g.nodes.length + 1)
              ≤ (g.nodes.length - s.resolved.card) * (g.nodes.length + 1) := by
            have : g.nodes.length - s.resolved.card
                = (g.nodes.length - (s.resolved.card + 1)) + 1 := by omega
            rw [this]
            ring_nf
            omega
          have h1 : rMeasure g (resolveFinish g node v rest s c)
              < (g.nodes.length - s.resolved.card) * (g.nodes.length + 1) := by
            unfold rMeasure
            rw [hcard]
            omega
          have h2 : (g.nodes.length - s.resolved.card) * (g.nodes.length + 1)
              ≤ rMeasure g s := Nat.le_add_right _ _
          omega
        rcases hk : nodeKind g node with t | _ | _ | _
        · rcases hcac : s.cache node with _ | b0
          · rcases t with p | der
            · have hph := wf.no_phrase node hnlt
              rw [hk] at hph
              simp [QueryNode.isPhrase] at hph
            · dsimp only
              rw [getDocids_word hcac]
              have hInv' := hInv.finish wf hq (by rw [hk]; simp)
                (v := predUnion s.pathDocids (predsOf g node) ∩ wordDerivationsDocids st der)
                (c := Function.update s.cache node (some (wordDerivationsDocids st der)))
                (fun d => term_value_sem wf hInv hnlt hnunres hready hk d)
                (by
                  intro n b1 h1
                  by_cases hn : n = node
                  · subst hn
                    rw [Function.update_same] at h1
                    cases h1
                    exact ⟨.word der, hk, rfl⟩
                  · rw [Function.update_noteq hn] at h1
                    exact hInv.cache_ok n b1 h1)
              exact ih _ hInv' (hdec _ _ hInv')
          · dsimp only
            rw [getDocids_cached hcac]
            obtain ⟨t', ht', hb0⟩ := hInv.cache_ok node b0 hcac
            rw [hk] at ht'
            cases ht'
            subst hb0
            have hInv' := hInv.finish wf hq (by rw [hk]; simp)
              (fun d => term_value_sem wf hInv hnlt hnunres hready hk d)
              hInv.cache_ok
            exact ih _ hInv' (hdec _ _ hInv')
        · exact absurd hk (wf.no_deleted node hnlt)
        · have hroot : node = g.root_node := wf.start_unique node hnlt hk
          subst hroot
          have hInv' := hInv.finish wf hq (by rw [hk]; simp)
            (v := uni) (fun d => (reaches_root_iff wf).symm) hInv.cache_ok
          exact ih _ hInv' (hdec _ _ hInv')
        · exact ⟨_, rfl⟩

end ResolveProofs

/-! ### Claims C3, C5, C8, C9 -/

/-- C3 (confirmed).  For every well-formed query graph and every universe,
when `resolve_query_graph` (run from the empty node cache, as each search
does) returns a bitmap, that bitmap is a subset of the universe and contains
exactly the documents that match at least one Start→End path of the graph
under the node-wise intersection rule. -/
theorem C3_resolve_subset_and_paths (st : Store) (g : QueryGraph) (uni : Finset ℕ)
    (e : ℕ) (topo : ℕ → ℕ) (wf : WFGraph g e topo) (fuel : ℕ) (b : Finset ℕ)
    (hok : resolve_query_graph st g emptyNodeCache uni fuel = .ok b) :
    b ⊆ uni ∧ ∀ doc, doc ∈ b ↔ matchesGraph st g uni e doc := by
  have hInv : Inv st g uni e (initState g emptyNodeCache) :=
    Inv.initial wf emptyNodeCache
      (fun n b h => by simp [emptyNodeCache] at h)
  have hchar := resolveLoop_ok_sem wf fuel _ hInv b hok
  constructor
  · intro doc hdoc
    exact ((hchar doc).mp hdoc).mem_uni
  · intro doc
    rw [hchar doc, reaches_iff_path]
    rfl

/-- Closed witness for C3 on the Start→"a"→"b"→End graph,
universe `{0,1,2,3}`. -/
theorem C3_witness :
    (resolve_query_graph exStore exGraph emptyNodeCache {0, 1, 2, 3} 10 = .ok {2}) ∧
    (({2} : Finset ℕ) ⊆ {0, 1, 2, 3} ∧
      ∀ doc, doc ∈ ({2} : Finset ℕ) ↔ matchesGraph exStore exGraph {0, 1, 2, 3} 3 doc) := by
  have wf : WFGraph exGraph 3 id := by
    refine ⟨?_, ?_, ?_, ?_, ?_, ?_, ?_, ?_, ?_, ?_, ?_, ?_, ?_, ?_, ?_⟩ <;> decide
  exact ⟨by decide,
    C3_resolve_subset_and_paths exStore exGraph {0, 1, 2, 3} 3 id wf 10 {2} (by decide)⟩

/-- C5 (confirmed).  Resolution distributes over union of universes: whenever
the resolver (from the empty cache) succeeds on `A`, `B` and `A ∪ B` of a
well-formed graph, the bitmap for `A ∪ B` is the union of the bitmaps for `A`
and for `B`. -/
theorem C5_resolve_union_distributes (st : Store) (g : QueryGraph) (e : ℕ)
    (topo : ℕ → ℕ) (wf : WFGraph g e topo) (A B : Finset ℕ)
    (fA fB fAB : ℕ) (a b c : Finset ℕ)
    (hA : resolve_query_graph st g emptyNodeCache A fA = .ok a)
    (hB : resolve_query_graph st g emptyNodeCache B fB = .ok b)
    (hAB : resolve_query_graph st g emptyNodeCache (A ∪ B) fAB = .ok c) :
    c = a ∪ b := by
  have hA' := (C3_resolve_subset_and_paths st g A e topo wf fA a hA).2
  have hB' := (C3_resolve_subset_and_paths st g B e topo wf fB b hB).2
  have hAB' := (C3_resolve_subset_and_paths st g (A ∪ B) e topo wf fAB c hAB).2
  ext d
  rw [Finset.mem_union, hA' d, hB' d, hAB' d]
  unfold matchesGraph
  rw [Finset.mem_union]
  generalize (∃ l, okPath st g d l ∧ l.getLast? = some e) = P
  tauto

/-- Closed witness for C5 on the Start→"a"→"b"→End graph with
`A = {1,2}` and `B = {2,3,4}`. -/
theorem C5_witness :
    (resolve_query_graph exStore exGraph emptyNodeCache {1, 2} 10 = .ok {2}) ∧
    (resolve_query_graph exStore exGraph emptyNodeCache {2, 3, 4} 10 = .ok {2}) ∧
    (resolve_query_graph exStore exGraph emptyNodeCache ({1, 2} ∪ {2, 3, 4}) 10 = .ok {2}) ∧
    ({2} : Finset ℕ) = {2} ∪ {2} := by
  have wf : WFGraph exGraph 3 id := by
    refine ⟨?_, ?_, ?_, ?_, ?_, ?_, ?_, ?_, ?_, ?_, ?_, ?_, ?_, ?_, ?_⟩ <;> decide
  refine ⟨by decide, by decide, by decide, ?_⟩
  exact C5_resolve_union_distributes exStore exGraph 3 id wf {1, 2} {2, 3, 4}
    10 10 10 {2} {2} {2} (by decide) (by decide) (by decide)

/-- C8 counterexample: on a graph with a (reachable) Deleted node, the
resolver panics (`panic!()`, modelled `.panic .deletedNode`); it does not
return a propagated `InvariantViolation` error value, contradicting the
claim's "as a propagated error result, distinguishable by the caller". -/
theorem C8_counterexample :
    resolve_query_graph exStore exGraphDel emptyNodeCache {0, 1} 10 =
      .panic .deletedNode ∧
    (Outcome.panic .deletedNode : Outcome (Finset ℕ)) ≠ .err .invariantViolation := by
  exact ⟨by decide, by intro h; cases h⟩

/-- C8 amended (proved): the resolver aborts by panic — not by an error
value — exactly at the two malformed situations (a processed Deleted node,
`panic!()` at line 111, and an emptied queue, `panic!()` at line 135);
on a well-formed phrase-free graph it returns a bitmap given enough fuel. -/
theorem C8_amended_wf_returns_bitmap (st : Store) (g : QueryGraph) (uni : Finset ℕ)
    (e : ℕ) (topo : ℕ → ℕ) (wf : WFGraph g e topo) :
    ∃ fuel b, resolve_query_graph st g emptyNodeCache uni fuel = .ok b := by
  have hInv : Inv st g uni e (initState g emptyNodeCache) :=
    Inv.initial wf emptyNodeCache
      (fun n b h => by simp [emptyNodeCache] at h)
  obtain ⟨b, hb⟩ := resolveLoop_terminates wf
    (rMeasure g (initState g emptyNodeCache) + 1) _ hInv (Nat.lt_succ_self _)
  exact ⟨_, b, hb⟩

/-- Closed witness for the amended C8 on the Start→"a"→"b"→End graph. -/
theorem C8_witness :
    ∃ fuel b, resolve_query_graph exStore exGraph emptyNodeCache {0, 5} fuel = .ok b := by
  have wf : WFGraph exGraph 3 id := by
    refine ⟨?_, ?_, ?_, ?_, ?_, ?_, ?_, ?_, ?_, ?_, ?_, ?_, ?_, ?_, ?_⟩ <;> decide
  exact C8_amended_wf_returns_bitmap exStore exGraph {0, 5} 3 id wf

/-- C9 counterexample: resolving an uncached Phrase term hits
`todo!("resolve phrase")` — a panic (crash), not an `Unsupported` error
value surfaced to the caller. -/
theorem C9_counterexample :
    getDocids exStore emptyNodeCache (.phrase ["a", "b"]) 0 = .panic .todoPhrase ∧
    getDocids exStore emptyNodeCache (.phrase ["a", "b"]) 0 ≠ .err .unsupported := by
  refine ⟨rfl, ?_⟩
  intro h
  rw [show getDocids exStore emptyNodeCache (.phrase ["a", "b"]) 0 =
    .panic .todoPhrase from rfl] at h
  cases h

/-- C9 amended (proved): for every store, cache and node id, resolving a
Phrase term whose node is not in the cache panics via `todo!` instead of
returning an error value. -/
theorem C9_amended_phrase_panics (st : Store) (cache : NodeCache) (p : List String)
    (i : ℕ) (h : cache i = none) :
    getDocids st cache (.phrase p) i = .panic .todoPhrase :=
  getDocids_phrase h

/-- Closed witness for the amended C9. -/
theorem C9_witness :
    emptyNodeCache 0 = none ∧
    getDocids exStore emptyNodeCache (.phrase ["x"]) 0 = .panic .todoPhrase :=
  ⟨rfl, C9_amended_phrase_panics exStore emptyNodeCache ["x"] 0 rfl⟩

/-! ## Part B proofs -/

section BucketProofs

variable {σ ε Q : Type}

theorem ascList_nodup (t : Finset ℕ) : (ascList t).Nodup :=
  (List.nodup_range _).filter _

theorem length_ascList (t : Finset ℕ) : (ascList t).length = t.card := by
  have h1 : (ascList t).toFinset = t := by
    ext x
    rw [List.mem_toFinset, mem_ascList]
  calc (ascList t).length = (ascList t).toFinset.card :=
        (List.toFinset_card_of_nodup (ascList_nodup t)).symm
    _ = t.card := by rw [h1]

theorem ascList_empty : ascList ∅ = [] := by
  have := length_ascList ∅
  rw [Finset.card_empty] at this
  exact List.eq_nil_of_length_eq_zero this

theorem erdLoop_length (dc : DistinctCtx) (limit : ℕ) :
    ∀ (l : List ℕ) (exc : Finset ℕ) (cnt : ℕ),
      (erdLoop dc limit l exc cnt).length ≤ limit - cnt := by
  intro l
  induction l with
  | nil => intro exc cnt; simp [erdLoop]
  | cons d rest ih =>
    intro exc cnt
    rw [erdLoop]
    by_cases h1 : limit ≤ cnt
    · rw [if_pos h1]; simp
    · rw [if_neg h1]
      by_cases h2 : d ∈ exc
      · rw [if_pos h2]; exact ih exc cnt
      · rw [if_neg h2]
        have := ih (distinct_single_docid dc d exc) (cnt + 1)
        simp only [List.length_cons]
        omega

theorem erdLoop_mem (dc : DistinctCtx) (limit : ℕ) :
    ∀ (l : List ℕ) (exc : Finset ℕ) (cnt : ℕ) (x : ℕ),
      x ∈ erdLoop dc limit l exc cnt → x ∈ l := by
  intro l
  induction l with
  | nil => intro exc cnt x h; rw [erdLoop] at h; cases h
  | cons d rest ih =>
    intro exc cnt x h
    rw [erdLoop] at h
    by_cases h1 : limit ≤ cnt
    · rw [if_pos h1] at h; cases h
    · rw [if_neg h1] at h
      by_cases h2 : d ∈ exc
      · rw [if_pos h2] at h
        exact List.mem_cons_of_mem _ (ih _ _ _ h)
      · rw [if_neg h2] at h
        rcases List.mem_cons.mp h with rfl | h
        · exact List.mem_cons_self _ _
        · exact List.mem_cons_of_mem _ (ih _ _ _ h)

/-! ### Claim C1 -/

/-- C1 amended (proved).  With an empty rule list: without a distinct field
the result is `universe.iter().skip(from).take(length)`; with a distinct
field configured the code instead returns the greedy distinct-filtered scan
of the whole universe from offset 0, stopped at `from + length` kept
documents — the `from` offset is not applied on that path (and the result
may therefore contain up to `from + length` documents, including documents
before the requested page). -/
theorem C1_amended_empty_rules (ctx : SearchCtx) (rules : ℕ → RankingRule σ ε Q)
    (q : Q) (uni : Finset ℕ) (frm length : ℕ) (states0 : ℕ → σ) (fuel : ℕ) :
    (ctx.distinct = none →
      bucket_sort ctx rules 0 q uni frm length states0 fuel =
        .ok (((ascList uni).drop frm).take length) []) ∧
    (∀ dc, ctx.distinct = some dc → frm ≤ uni.card →
      bucket_sort ctx rules 0 q uni frm length states0 fuel =
        .ok (erdLoop dc (frm + length) (ascList uni) ∅ 0) []) ∧
    (∀ res trace, bucket_sort ctx rules 0 q uni frm length states0 fuel = .ok res trace →
      res.length ≤ frm + length) := by
  refine ⟨?_, ?_, ?_⟩
  · intro hd
    unfold bucket_sort
    by_cases hg : uni.card < frm
    · rw [if_pos hg]
      have hlen : (ascList uni).length ≤ frm := by
        rw [length_ascList]; omega
      rw [List.drop_eq_nil_of_le hlen]
      simp
    · rw [if_neg hg, if_pos rfl, hd]
  · intro dc hd hfrm
    unfold bucket_sort
    rw [if_neg (by omega), if_pos rfl, hd]
  · intro res trace h
    unfold bucket_sort at h
    by_cases hg : uni.card < frm
    · rw [if_pos hg] at h
      cases h
      simp
    · rw [if_neg hg, if_pos rfl] at h
      rcases hd : ctx.distinct with _ | dc
      · rw [hd] at h
        cases h
        calc (((ascList uni).drop frm).take length).length ≤ length := by
              simp [List.length_take]
          _ ≤ frm + length := by omega
      · rw [hd] at h
        cases h
        have := erdLoop_length dc (frm + length) (ascList uni) ∅ 0
        omega

/-- C1 counterexample: empty rules, distinct configured with every document
in its own class, universe `{0,1}`, `from = 1`, `length = 1`.  The claim
("the first `length` elements starting at offset `from`, with distinct
filtering applied") predicts `[1]`; the code returns `[0, 1]` — the offset
is ignored and the result is longer than `length`. -/
theorem C1_counterexample :
    bucket_sort distinctIdCtx (fun _ => trivRule) 0 () {0, 1} 1 1 (fun _ => ()) 9 =
      .ok [0, 1] [] ∧ ([0, 1] : List ℕ) ≠ [1] := by
  exact ⟨by decide, by decide⟩

/-- Closed witness for the amended C1 (both the no-distinct and the distinct
empty-rules equations). -/
theorem C1_witness :
    bucket_sort noCtx (fun _ => trivRule) 0 () ({3, 4, 5} : Finset ℕ) 1 1 (fun _ => ()) 9 =
      .ok (((ascList {3, 4, 5}).drop 1).take 1) [] ∧
    bucket_sort distinctIdCtx (fun _ => trivRule) 0 () {0, 1} 1 1 (fun _ => ()) 9 =
      .ok (erdLoop ⟨{0, 1}, id⟩ (1 + 1) (ascList {0, 1}) ∅ 0) [] :=
  ⟨(C1_amended_empty_rules noCtx (fun _ => trivRule) () {3, 4, 5} 1 1 (fun _ => ()) 9).1 rfl,
   (C1_amended_empty_rules distinctIdCtx (fun _ => trivRule) () {0, 1} 1 1
      (fun _ => ()) 9).2.1 ⟨{0, 1}, id⟩ rfl (by decide)⟩

/-! ### Claim C2: start_iteration / end_iteration pairing -/

theorem maybe_add_trace (ctx : SearchCtx) (frm length : ℕ) (c : Finset ℕ) (s : BSSt σ) :
    (maybe_add_to_results ctx frm length c s).trace = s.trace := rfl

theorem maybe_add_cur (ctx : SearchCtx) (frm length : ℕ) (c : Finset ℕ) (s : BSSt σ) :
    (maybe_add_to_results ctx frm length c s).cur = s.cur := rfl

theorem maybe_add_results_len (ctx : SearchCtx) (frm length : ℕ) (c : Finset ℕ)
    (s : BSSt σ) (h : s.results.length ≤ length) :
    (maybe_add_to_results ctx frm length c s).results.length ≤ length := by
  unfold maybe_add_to_results
  dsimp only
  split_ifs <;> (try simp only [List.length_append, List.length_take]) <;> omega

theorem countEv_append (t u : List BSEvent) (ev : BSEvent) :
    countEv (t ++ u) ev = countEv t ev + countEv u ev := by
  induction t with
  | nil => simp [countEv]
  | cons e t ih => simp [countEv, ih]; omega

theorem countEv_start_start (i j : ℕ) :
    countEv [.startIt i] (.startIt j) = if i = j then 1 else 0 := by
  simp only [countEv]
  by_cases h : i = j
  · subst h; rw [if_pos rfl, if_pos rfl]
  · rw [if_neg (by simp [h]), if_neg h]

theorem countEv_start_end (i j : ℕ) : countEv [BSEvent.startIt i] (.endIt j) = 0 := by
  simp [countEv]

theorem countEv_end_start (i j : ℕ) : countEv [BSEvent.endIt i] (.startIt j) = 0 := by
  simp [countEv]

theorem countEv_end_end (i j : ℕ) :
    countEv [.endIt i] (.endIt j) = if i = j then 1 else 0 := by
  simp only [countEv]
  by_cases h : i = j
  · subst h; rw [if_pos rfl, if_pos rfl]
  · rw [if_neg (by simp [h]), if_neg h]

theorem traceBal_le {t : List BSEvent} {cur : ℕ} (hb : TraceBal t cur) :
    ∀ i, countEv t (.endIt i) ≤ countEv t (.startIt i) := by
  intro i
  have := hb i
  omega

theorem traceBal_step {t : List BSEvent} {cur : ℕ} (hb : TraceBal t cur) :
    TraceBal (t ++ [.startIt (cur + 1)]) (cur + 1) := by
  intro i
  have := hb i
  rw [countEv_append, countEv_append, countEv_start_start, countEv_start_end]
  by_cases hi : i = cur + 1
  · subst hi
    rw [if_neg (by omega)] at this
    rw [if_pos rfl, if_pos (le_refl _)]
    omega
  · rw [if_neg (fun h => hi h.symm)]
    have hle : ((i ≤ cur + 1) ↔ (i ≤ cur)) := by omega
    rw [if_congr hle rfl rfl]
    omega

theorem traceBal_back {t : List BSEvent} {cur : ℕ} (hb : TraceBal t cur) :
    ∀ i, countEv (t ++ [.endIt cur]) (.startIt i) =
      countEv (t ++ [.endIt cur]) (.endIt i) + (if i + 1 ≤ cur then 1 else 0) := by
  intro i
  have := hb i
  rw [countEv_append, countEv_append, countEv_end_start, countEv_end_end]
  by_cases hi : i = cur
  · subst hi
    rw [if_pos (le_refl _)] at this
    rw [if_pos rfl, if_neg (by omega)]
    omega
  · rw [if_neg (fun h => hi h.symm)]
    by_cases hic : i ≤ cur
    · rw [if_pos hic] at this
      rw [if_pos (by omega)]
      omega
    · rw [if_neg hic] at this
      rw [if_neg (by omega)]
      omega

theorem bsLoop_balance (ctx : SearchCtx) (rules : ℕ → RankingRule σ ε Q)
    (n frm length : ℕ) :
    ∀ (fuel : ℕ) (s : BSSt σ), TraceBal s.trace s.cur →
      (∀ i, countEv ((bsLoop ctx rules n frm length fuel s).trace) (.endIt i) ≤
        countEv ((bsLoop ctx rules n frm length fuel s).trace) (.startIt i)) ∧
      (∀ res trace, bsLoop ctx rules n frm length fuel s = .ok res trace →
        res.length < length →
        ∀ i, countEv trace (.startIt i) = countEv trace (.endIt i)) := by
  intro fuel
  induction fuel with
  | zero =>
    intro s hb
    refine ⟨traceBal_le hb, ?_⟩
    intro res trace h
    cases h
  | succ fuel ih =>
    intro s hb
    rw [bsLoop]
    by_cases hfull : length ≤ s.results.length
    · rw [if_pos hfull]
      refine ⟨traceBal_le hb, ?_⟩
      intro res trace h hlen
      cases h
      omega
    · rw [if_neg hfull]
      by_cases hsmall : (s.stack s.cur).card ≤ 1
      · rw [if_pos hsmall]
        dsimp only
        set s1 := maybe_add_to_results ctx frm length (s.stack s.cur) s with hs1
        set s2 : BSSt σ :=
          { s1 with stack := Function.update s1.stack s1.cur ∅ } with hs2
        have hs2tr : s2.trace = s.trace := maybe_add_trace ctx frm length (s.stack s.cur) s
        have hs2cur : s2.cur = s.cur := maybe_add_cur ctx frm length (s.stack s.cur) s
        have hb2 : TraceBal s2.trace s2.cur := by rw [hs2tr, hs2cur]; exact hb
        unfold goBack
        by_cases hne : s2.stack s2.cur = ∅
        swap
        · rw [if_pos hne]
          exact ⟨traceBal_le hb2, fun res trace h => by cases h⟩
        · rw [if_neg (not_not_intro hne)]
          dsimp only
          by_cases h0 : s2.cur = 0
          · rw [if_pos h0]
            constructor
            · intro i
              have hth := traceBal_back hb2 i
              have h0' : s1.cur = 0 := h0
              rw [h0, show s2.trace = s1.trace from rfl] at hth
              simp only [BSOut.trace]
              rw [h0']
              omega
            · intro res trace h hlen
              cases h
              intro i
              have hth := traceBal_back hb2 i
              have h0' : s1.cur = 0 := h0
              rw [h0, show s2.trace = s1.trace from rfl,
                if_neg (by omega : ¬ i + 1 ≤ 0)] at hth
              rw [h0']
              omega
          · rw [if_neg h0]
            refine ih _ ?_
            intro i
            have hth := traceBal_back hb2 i
            rw [show s2.trace = s1.trace from rfl] at hth
            dsimp only
            rcases Nat.exists_eq_succ_of_ne_zero h0 with ⟨m, hm⟩
            rw [hm] at hth ⊢
            simpa using hth
      · rw [if_neg hsmall]
        rcases hnext : (rules s.cur).next_bucket (s.states s.cur) (s.stack s.cur)
          with e | ⟨_ | bucket, st1⟩
        · exact ⟨traceBal_le hb, fun res trace h => by cases h⟩
        · dsimp only
          set s1 : BSSt σ := { s with states := Function.update s.states s.cur st1 } with hs1
          have hb1 : TraceBal s1.trace s1.cur := hb
          unfold goBack
          by_cases hne : s1.stack s1.cur = ∅
          swap
          · rw [if_pos hne]
            exact ⟨traceBal_le hb1, fun res trace h => by cases h⟩
          · rw [if_neg (not_not_intro hne)]
            dsimp only
            by_cases h0 : s1.cur = 0
            · rw [if_pos h0]
              constructor
              · intro i
                have hth := traceBal_back hb1 i
                have h0' : s.cur = 0 := h0
                rw [h0, show s1.trace = s.trace from rfl] at hth
                simp only [BSOut.trace]
                rw [h0']
                omega
              · intro res trace h hlen
                cases h
                intro i
                have hth := traceBal_back hb1 i
                have h0' : s.cur = 0 := h0
                rw [h0, show s1.trace = s.trace from rfl,
                  if_neg (by omega : ¬ i + 1 ≤ 0)] at hth
                rw [h0']
                omega
            · rw [if_neg h0]
              refine ih _ ?_
              intro i
              have hth := traceBal_back hb1 i
              rw [show s1.trace = s.trace from rfl] at hth
              dsimp only
              rcases Nat.exists_eq_succ_of_ne_zero h0 with ⟨m, hm⟩
              rw [hm] at hth ⊢
              simpa using hth
        · dsimp only
          by_cases hcommit : s.cur = n - 1 ∨ bucket.candidates.card ≤ 1
              ∨ s.cur_offset + bucket.candidates.card < frm
          · rw [if_pos hcommit]
            exact ih _ hb
          · rw [if_neg hcommit]
            rcases hstart : (rules (s.cur + 1)).start_iteration
                (Function.update s.states s.cur st1 (s.cur + 1))
                bucket.candidates bucket.query with e | st2
            · refine ⟨?_, fun res trace h => by cases h⟩
              intro i
              dsimp only
              exact traceBal_le (traceBal_step hb) i
            · refine ih _ ?_
              exact traceBal_step hb

/-- C2 amended (proved).  On every exit path, per rule index, the number of
`end_iteration` calls never exceeds the number of `start_iteration` calls;
and on a normal return with fewer than `length` results (which is exactly a
depth-0 exhaustion exit), every `start_iteration` is matched by exactly one
`end_iteration`.  The original claim fails on the early-exit and error
paths, where the still-active rules' `start_iteration`s stay unmatched
(see the counterexample). -/
theorem C2_amended_lifecycle_pairing (ctx : SearchCtx) (rules : ℕ → RankingRule σ ε Q)
    (n : ℕ) (q : Q) (uni : Finset ℕ) (frm length : ℕ) (states0 : ℕ → σ) (fuel : ℕ) :
    (∀ i, countEv ((bucket_sort ctx rules n q uni frm length states0 fuel).trace) (.endIt i) ≤
      countEv ((bucket_sort ctx rules n q uni frm length states0 fuel).trace) (.startIt i)) ∧
    (∀ res trace, bucket_sort ctx rules n q uni frm length states0 fuel = .ok res trace →
      res.length < length →
      ∀ i, countEv trace (.startIt i) = countEv trace (.endIt i)) := by
  have hinit : ∀ st0 : σ, TraceBal (bsInit uni states0 st0).trace (bsInit uni states0 st0).cur := by
    intro st0 i
    unfold bsInit
    dsimp only
    rw [countEv_start_start, countEv_start_end]
    by_cases hi : i = 0
    · subst hi
      rw [if_pos rfl, if_pos (le_refl _)]
    · rw [if_neg (fun h => hi h.symm), if_neg (by omega)]
  unfold bucket_sort
  by_cases hg : uni.card < frm
  · rw [if_pos hg]
    exact ⟨fun i => by simp [BSOut.trace, countEv], fun res trace h _ => by
      cases h; simp [countEv]⟩
  · rw [if_neg hg]
    by_cases hn : n = 0
    · rw [if_pos hn]
      rcases ctx.distinct with _ | dc
      · exact ⟨fun i => by simp [BSOut.trace, countEv], fun res trace h _ => by
          cases h; simp [countEv]⟩
      · exact ⟨fun i => by simp [BSOut.trace, countEv], fun res trace h _ => by
          cases h; simp [countEv]⟩
    · rw [if_neg hn]
      rcases hstart : (rules 0).start_iteration (states0 0) uni q with e | st0
      · refine ⟨?_, fun res trace h => by cases h⟩
        intro i
        simp only [BSOut.trace]
        rw [countEv_start_end, countEv_start_start]
        split_ifs <;> omega
      · exact bsLoop_balance ctx rules n frm length fuel (bsInit uni states0 st0) (hinit st0)

/-- C2 counterexample: one rule, `from = 0`, `length = 1`, universe
`{0,1,2}`.  The run returns `[0]` by early exit with trace `[startIt 0]`:
rule 0's `start_iteration` was never matched by an `end_iteration`,
contradicting "exactly one `end_iteration` along every exit path". -/
theorem C2_counterexample :
    bucket_sort noCtx (fun _ => fullRule) 1 () {0, 1, 2} 0 1 (fun _ => ()) 9 =
      .ok [0] [.startIt 0] ∧
    countEv [BSEvent.startIt 0] (.startIt 0) = 1 ∧
    countEv [BSEvent.startIt 0] (.endIt 0) = 0 :=
  ⟨by decide, by decide, by decide⟩

/-- Closed witness for the amended C2: an exhaustion run (`length` larger
than the universe) whose trace is exactly balanced. -/
theorem C2_witness :
    bucket_sort noCtx (fun _ => fullRule) 1 () {0, 1} 0 5 (fun _ => ()) 9 =
      .ok [0, 1] [.startIt 0, .endIt 0] ∧
    ([0, 1] : List ℕ).length < 5 ∧
    (∀ i, countEv [BSEvent.startIt 0, .endIt 0] (.startIt i) =
      countEv [BSEvent.startIt 0, .endIt 0] (.endIt i)) :=
  ⟨by decide, by decide,
    (C2_amended_lifecycle_pairing noCtx (fun _ => fullRule) 1 () {0, 1} 0 5
      (fun _ => ()) 9).2 [0, 1] [.startIt 0, .endIt 0] (by decide) (by decide)⟩

/-! ### Properties of the distinct filter -/

theorem distinct_single_mono (dc : DistinctCtx) (d : ℕ) (exc : Finset ℕ) :
    exc ⊆ distinct_single_docid dc d exc :=
  Finset.subset_union_left

theorem applyDistinctAux_sub (dc : DistinctCtx) :
    ∀ (l : List ℕ) (rem exc : Finset ℕ),
      (applyDistinctAux dc l rem exc).1 ⊆ rem ∪ l.toFinset := by
  intro l
  induction l with
  | nil =>
    intro rem exc
    simp [applyDistinctAux]
  | cons d rest ih =>
    intro rem exc
    rw [applyDistinctAux]
    by_cases hd : d ∈ exc
    · rw [if_pos hd]
      refine (ih rem exc).trans ?_
      intro x hx
      rcases Finset.mem_union.mp hx with h | h
      · exact Finset.mem_union.mpr (.inl h)
      · exact Finset.mem_union.mpr (.inr (by simp at h ⊢; exact .inr h))
    · rw [if_neg hd]
      refine (ih _ _).trans ?_
      intro x hx
      rcases Finset.mem_union.mp hx with h | h
      · rcases Finset.mem_insert.mp h with rfl | h
        · exact Finset.mem_union.mpr (.inr (by simp))
        · exact Finset.mem_union.mpr (.inl h)
      · exact Finset.mem_union.mpr (.inr (by simp at h ⊢; exact .inr h))

theorem applyDistinctAux_exc_mono (dc : DistinctCtx) :
    ∀ (l : List ℕ) (rem exc : Finset ℕ),
      exc ⊆ (applyDistinctAux dc l rem exc).2 := by
  intro l
  induction l with
  | nil => intro rem exc; simp [applyDistinctAux]
  | cons d rest ih =>
    intro rem exc
    rw [applyDistinctAux]
    by_cases hd : d ∈ exc
    · rw [if_pos hd]; exact ih rem exc
    · rw [if_neg hd]
      exact (distinct_single_mono dc d exc).trans (ih _ _)

/-- Core property of the distinct scan: if previous keeps already had their
value-mates excluded and carried pairwise distinct values, then so does the
final output, and every indexed value-mate of a kept document is excluded. -/
theorem applyDistinctAux_vals (dc : DistinctCtx) :
    ∀ (l : List ℕ) (rem exc : Finset ℕ),
      l.Nodup → (∀ x ∈ l, x ∈ dc.docs) → (∀ x ∈ l, x ∉ rem) →
      (∀ a ∈ rem, ∀ x ∈ dc.docs, dc.fval x = dc.fval a → x ≠ a → x ∈ exc) →
      (∀ a ∈ rem, ∀ b ∈ rem, a ≠ b → dc.fval a ≠ dc.fval b) →
      ((∀ a ∈ (applyDistinctAux dc l rem exc).1, ∀ b ∈ (applyDistinctAux dc l rem exc).1,
          a ≠ b → dc.fval a ≠ dc.fval b) ∧
        (∀ a ∈ (applyDistinctAux dc l rem exc).1, ∀ x ∈ dc.docs,
          dc.fval x = dc.fval a → x ≠ a → x ∈ (applyDistinctAux dc l rem exc).2)) := by
  intro l
  induction l with
  | nil =>
    intro rem exc _ _ _ hmates hpair
    simp only [applyDistinctAux]
    exact ⟨hpair, hmates⟩
  | cons d rest ih =>
    intro rem exc hnd hdocs hfresh hmates hpair
    rw [List.nodup_cons] at hnd
    rw [applyDistinctAux]
    by_cases hd : d ∈ exc
    · rw [if_pos hd]
      exact ih rem exc hnd.2 (fun x hx => hdocs x (List.mem_cons_of_mem _ hx))
        (fun x hx => hfresh x (List.mem_cons_of_mem _ hx)) hmates hpair
    · rw [if_neg hd]
      refine ih _ _ hnd.2 (fun x hx => hdocs x (List.mem_cons_of_mem _ hx)) ?_ ?_ ?_
      · intro x hx
        rw [Finset.mem_insert]
        rintro (rfl | hmem)
        · exact hnd.1 hx
        · exact hfresh x (List.mem_cons_of_mem _ hx) hmem
      · intro a ha x hxdocs hval hne
        rcases Finset.mem_insert.mp ha with rfl | ha
        · unfold distinct_single_docid
          exact Finset.mem_union.mpr (.inr (Finset.mem_filter.mpr ⟨hxdocs, hval, hne⟩))
        · exact distinct_single_mono dc d exc (hmates a ha x hxdocs hval hne)
      · intro a ha b hb hab
        rcases Finset.mem_insert.mp ha with ha1 | ha1 <;>
          rcases Finset.mem_insert.mp hb with hb1 | hb1
        · exact absurd (ha1.trans hb1.symm) hab
        · intro hv
          exact hd (hmates b hb1 d (hdocs d (List.mem_cons_self _ _))
            (ha1 ▸ hv) (ha1 ▸ hab))
        · intro hv
          exact hd (hmates a ha1 d (hdocs d (List.mem_cons_self _ _))
            (hb1 ▸ hv.symm) (hb1 ▸ (Ne.symm hab)))
        · exact hpair a ha1 b hb1 hab

theorem postDistinct_sub (ctx : SearchCtx) (cands : Finset ℕ) :
    postDistinct ctx cands ⊆ cands := by
  unfold postDistinct
  rcases ctx.distinct with _ | dc
  · exact subset_rfl
  · dsimp only
    unfold apply_distinct_rule
    refine (applyDistinctAux_sub dc _ _ _).trans ?_
    intro x hx
    rcases Finset.mem_union.mp hx with h | h
    · exact absurd h (Finset.not_mem_empty x)
    · rw [List.mem_toFinset, mem_ascList] at h
      exact h

theorem postDistinct_vals {ctx : SearchCtx} {dc : DistinctCtx}
    (hctx : ctx.distinct = some dc) (cands : Finset ℕ) (hdocs : cands ⊆ dc.docs) :
    (∀ a ∈ postDistinct ctx cands, ∀ b ∈ postDistinct ctx cands,
        a ≠ b → dc.fval a ≠ dc.fval b) ∧
    (∀ a ∈ postDistinct ctx cands, ∀ x ∈ dc.docs,
        dc.fval x = dc.fval a → x ≠ a → x ∈ postExcluded ctx cands) := by
  unfold postDistinct postExcluded
  rw [hctx]
  dsimp only
  unfold apply_distinct_rule
  exact applyDistinctAux_vals dc (ascList cands) ∅ ∅ (ascList_nodup cands)
    (fun x hx => hdocs (mem_ascList.mp hx))
    (fun x _ => Finset.not_mem_empty x)
    (fun a ha => absurd ha (Finset.not_mem_empty a))
    (fun a ha => absurd ha (Finset.not_mem_empty a))

/-! ### Pointwise descriptions of `maybe_add_to_results` -/

theorem maybe_add_stack (ctx : SearchCtx) (frm length : ℕ) (cands : Finset ℕ)
    (s : BSSt σ) (i : ℕ) :
    (maybe_add_to_results ctx frm length cands s).stack i =
      s.stack i \ postExcluded ctx cands := by
  unfold maybe_add_to_results postExcluded
  rcases ctx.distinct with _ | dc
  · exact (Finset.sdiff_empty).symm
  · rfl

theorem maybe_add_results (ctx : SearchCtx) (frm length : ℕ) (cands : Finset ℕ)
    (s : BSSt σ) :
    ∃ A : List ℕ, (maybe_add_to_results ctx frm length cands s).results = s.results ++ A ∧
      A.Sublist (ascList (postDistinct ctx cands)) := by
  unfold maybe_add_to_results postDistinct
  rcases ctx.distinct with _ | dc <;> dsimp only <;>
  · split_ifs
    · exact ⟨[], by simp⟩
    · exact ⟨[], by simp⟩
    · refine ⟨_, rfl, ?_⟩
      rw [List.splitAt_eq]
      exact (List.take_sublist _ _).trans (List.drop_sublist _ _)
    · exact ⟨_, rfl, List.take_sublist _ _⟩

theorem maybe_add_cur_offset (ctx : SearchCtx) (frm length : ℕ) (cands : Finset ℕ)
    (s : BSSt σ) :
    (maybe_add_to_results ctx frm length cands s).cur_offset =
      s.cur_offset + (postDistinct ctx cands).card := by
  unfold maybe_add_to_results postDistinct
  rcases ctx.distinct with _ | dc <;> rfl

/-! ### Preservation of the soundness invariant -/

theorem pairwise_vals_of_sublist {dc : DistinctCtx} {A : List ℕ} {t : Finset ℕ}
    (hA : A.Sublist (ascList t))
    (hvals : ∀ a ∈ t, ∀ b ∈ t, a ≠ b → dc.fval a ≠ dc.fval b) :
    A.Pairwise (fun a b => dc.fval a ≠ dc.fval b) := by
  refine List.Pairwise.sublist hA ?_
  refine List.Pairwise.imp_of_mem ?_ (ascList_nodup t)
  intro a b ha hb hne
  exact hvals a (mem_ascList.mp ha) b (mem_ascList.mp hb) hne

/-- Invariant preservation through `maybe_add_to_results` for candidates
that are a subset of the universe, value-separated from the current results,
and no longer present in any stack slot. -/
theorem BSInv.maybe_add {ctx : SearchCtx} {uni : Finset ℕ} {length : ℕ} {s : BSSt σ}
    (hInv : BSInv ctx uni length s) {cands : Finset ℕ} (hsub : cands ⊆ uni)
    (hdocs : ∀ dc, ctx.distinct = some dc → uni ⊆ dc.docs)
    (hsep : ∀ dc, ctx.distinct = some dc →
      ∀ d ∈ cands, ∀ r ∈ s.results, dc.fval d ≠ dc.fval r)
    (hgone : ∀ i, Disjoint (s.stack i) cands) (frm : ℕ) :
    BSInv ctx uni length (maybe_add_to_results ctx frm length cands s) := by
  obtain ⟨A, hres, hAsub⟩ := maybe_add_results ctx frm length cands s
  have hAmem : ∀ x ∈ A, x ∈ postDistinct ctx cands :=
    fun x hx => mem_ascList.mp (hAsub.mem hx)
  refine ⟨?_, ?_, ?_, ?_, ?_, ?_, ?_⟩
  · exact maybe_add_results_len ctx frm length cands s hInv.res_len
  · intro d hd
    rw [hres] at hd
    rcases List.mem_append.mp hd with h | h
    · exact hInv.res_mem d h
    · exact hsub (postDistinct_sub ctx cands (hAmem d h))
  · intro i
    rw [maybe_add_stack]
    exact (Finset.sdiff_subset).trans (hInv.stack_sub i)
  · intro i hi
    rw [maybe_add_stack, hInv.stale i (by rw [maybe_add_cur] at hi; exact hi)]
    exact Finset.empty_sdiff _
  · intro i j hij
    rw [maybe_add_stack, maybe_add_stack]
    exact Finset.disjoint_of_subset_left Finset.sdiff_subset
      (Finset.disjoint_of_subset_right Finset.sdiff_subset (hInv.disj i j hij))
  · intro dc hdc
    rw [hres, List.pairwise_append]
    have hcd : cands ⊆ dc.docs := hsub.trans (hdocs dc hdc)
    refine ⟨hInv.dist_res dc hdc,
      pairwise_vals_of_sublist hAsub (postDistinct_vals hdc cands hcd).1, ?_⟩
    intro a ha b hb
    exact (hsep dc hdc b (postDistinct_sub ctx cands (hAmem b hb)) a ha).symm
  · intro dc hdc i d hd r hr
    rw [maybe_add_stack] at hd
    rw [hres] at hr
    have hdm : d ∈ s.stack i := Finset.mem_sdiff.mp hd |>.1
    have hdex : d ∉ postExcluded ctx cands := Finset.mem_sdiff.mp hd |>.2
    rcases List.mem_append.mp hr with h | h
    · exact hInv.dist_sep dc hdc i d hdm r h
    · have hrpd : r ∈ postDistinct ctx cands := hAmem r h
      intro hv
      by_cases hdr : d = r
      · subst hdr
        exact absurd (postDistinct_sub ctx cands hrpd)
          (Finset.disjoint_left.mp (hgone i) hdm)
      · exact hdex ((postDistinct_vals hdc cands (hsub.trans (hdocs dc hdc))).2
          r hrpd d (hdocs dc hdc (hInv.stack_sub i hdm)) hv hdr)

/-- Invariant preservation for the singleton/empty commit: apply the distinct
rule to the whole current slot, append, then clear that slot. -/
theorem BSInv.commitSlot {ctx : SearchCtx} {uni : Finset ℕ} {length : ℕ} {s : BSSt σ}
    (hInv : BSInv ctx uni length s)
    (hdocs : ∀ dc, ctx.distinct = some dc → uni ⊆ dc.docs) (frm : ℕ) :
    BSInv ctx uni length
      { maybe_add_to_results ctx frm length (s.stack s.cur) s with
        stack := Function.update
          (maybe_add_to_results ctx frm length (s.stack s.cur) s).stack
          (maybe_add_to_results ctx frm length (s.stack s.cur) s).cur ∅ } := by
  set cands := s.stack s.cur with hcands
  obtain ⟨A, hres, hAsub⟩ := maybe_add_results ctx frm length cands s
  have hAmem : ∀ x ∈ A, x ∈ postDistinct ctx cands :=
    fun x hx => mem_ascList.mp (hAsub.mem hx)
  have hsub : cands ⊆ uni := hInv.stack_sub s.cur
  have hcur : (maybe_add_to_results ctx frm length cands s).cur = s.cur :=
    maybe_add_cur ctx frm length cands s
  refine ⟨?_, ?_, ?_, ?_, ?_, ?_, ?_⟩
  · exact maybe_add_results_len ctx frm length cands s hInv.res_len
  · intro d hd
    rw [hres] at hd
    rcases List.mem_append.mp hd with h | h
    · exact hInv.res_mem d h
    · exact hsub (postDistinct_sub ctx cands (hAmem d h))
  · intro i
    dsimp only
    rw [hcur]
    by_cases hi : i = s.cur
    · subst hi
      rw [Function.update_same]
      exact Finset.empty_subset _
    · rw [Function.update_noteq hi, maybe_add_stack]
      exact (Finset.sdiff_subset).trans (hInv.stack_sub i)
  · intro i hi
    dsimp only
    rw [hcur]
    rw [maybe_add_cur] at hi
    by_cases hieq : i = s.cur
    · subst hieq
      rw [Function.update_same]
    · rw [Function.update_noteq hieq, maybe_add_stack,
        hInv.stale i hi, Finset.empty_sdiff]
  · intro i j hij
    dsimp only
    rw [hcur]
    have hsubs : ∀ k, Function.update
        (maybe_add_to_results ctx frm length cands s).stack s.cur ∅ k ⊆ s.stack k := by
      intro k
      by_cases hk : k = s.cur
      · subst hk; rw [Function.update_same]; exact Finset.empty_subset _
      · rw [Function.update_noteq hk, maybe_add_stack]
        exact Finset.sdiff_subset
    exact Finset.disjoint_of_subset_left (hsubs i)
      (Finset.disjoint_of_subset_right (hsubs j) (hInv.disj i j hij))
  · intro dc hdc
    dsimp only
    rw [hres, List.pairwise_append]
    have hcd : cands ⊆ dc.docs := hsub.trans (hdocs dc hdc)
    refine ⟨hInv.dist_res dc hdc,
      pairwise_vals_of_sublist hAsub (postDistinct_vals hdc cands hcd).1, ?_⟩
    intro a ha b hb
    exact (hInv.dist_sep dc hdc s.cur b
      (postDistinct_sub ctx cands (hAmem b hb)) a ha).symm
  · intro dc hdc i d hd r hr
    dsimp only at hd
    rw [hcur] at hd
    by_cases hieq : i = s.cur
    · subst hieq
      rw [Function.update_same] at hd
      exact absurd hd (Finset.not_mem_empty d)
    · rw [Function.update_noteq hieq, maybe_add_stack] at hd
      rw [hres] at hr
      have hdm : d ∈ s.stack i := Finset.mem_sdiff.mp hd |>.1
      have hdex : d ∉ postExcluded ctx cands := Finset.mem_sdiff.mp hd |>.2
      rcases List.mem_append.mp hr with h | h
      · exact hInv.dist_sep dc hdc i d hdm r h
      · have hrpd : r ∈ postDistinct ctx cands := hAmem r h
        intro hv
        by_cases hdr : d = r
        · subst hdr
          exact absurd (postDistinct_sub ctx cands hrpd)
            (Finset.disjoint_left.mp (hInv.disj i s.cur hieq) hdm)
        · exact hdex ((postDistinct_vals hdc cands (hsub.trans (hdocs dc hdc))).2
            r hrpd d (hdocs dc hdc (hInv.stack_sub i hdm)) hv hdr)

/-- The invariant survives clearing the current slot and popping to the
parent rule (states and trace are irrelevant to it). -/
theorem BSInv.popSlot {ctx : SearchCtx} {uni : Finset ℕ} {length : ℕ} {s : BSSt σ}
    (hInv : BSInv ctx uni length s) (tr : List BSEvent) (stf : ℕ → σ) :
    BSInv ctx uni length
      { states := stf, stack := Function.update s.stack s.cur ∅,
        cur := s.cur - 1, results := s.results, cur_offset := s.cur_offset,
        trace := tr } := by
  have hpt : ∀ k, Function.update s.stack s.cur ∅ k ⊆ s.stack k := by
    intro k
    by_cases hk : k = s.cur
    · subst hk; rw [Function.update_same]; exact Finset.empty_subset _
    · rw [Function.update_noteq hk]
  refine ⟨hInv.res_len, hInv.res_mem, ?_, ?_, ?_, hInv.dist_res, ?_⟩
  · intro i
    exact (hpt i).trans (hInv.stack_sub i)
  · intro i hi
    dsimp only at hi ⊢
    by_cases hk : i = s.cur
    · subst hk; rw [Function.update_same]
    · rw [Function.update_noteq hk]
      exact hInv.stale i (by omega)
  · intro i j hij
    exact Finset.disjoint_of_subset_left (hpt i)
      (Finset.disjoint_of_subset_right (hpt j) (hInv.disj i j hij))
  · intro dc hdc i d hd r hr
    exact hInv.dist_sep dc hdc i d (hpt i hd) r hr

/-- The invariant survives descending into a bucket: the bucket is removed
from the current slot and installed one level deeper. -/
theorem BSInv.descend {ctx : SearchCtx} {uni : Finset ℕ} {length : ℕ} {s : BSSt σ}
    (hInv : BSInv ctx uni length s) {b : Finset ℕ} (hb : b ⊆ s.stack s.cur)
    (tr : List BSEvent) (stf : ℕ → σ) :
    BSInv ctx uni length
      { states := stf,
        stack := Function.update (Function.update s.stack s.cur (s.stack s.cur \ b))
          (s.cur + 1) b,
        cur := s.cur + 1, results := s.results, cur_offset := s.cur_offset,
        trace := tr } := by
  set f := Function.update (Function.update s.stack s.cur (s.stack s.cur \ b))
    (s.cur + 1) b with hf
  have hpt : ∀ k, f k = if k = s.cur + 1 then b
      else if k = s.cur then s.stack s.cur \ b else s.stack k := by
    intro k
    by_cases h1 : k = s.cur + 1
    · subst h1; rw [hf, Function.update_same, if_pos rfl]
    · rw [hf, Function.update_noteq h1, if_neg h1]
      by_cases h2 : k = s.cur
      · subst h2; rw [Function.update_same, if_pos rfl]
      · rw [Function.update_noteq h2, if_neg h2]
  have hsub : ∀ k, f k ⊆ s.stack k ∨ (k = s.cur + 1 ∧ f k = b) := by
    intro k
    rw [hpt k]
    by_cases h1 : k = s.cur + 1
    · exact .inr ⟨h1, by rw [if_pos h1]⟩
    · rw [if_neg h1]
      by_cases h2 : k = s.cur
      · subst h2; rw [if_pos rfl]; exact .inl Finset.sdiff_subset
      · rw [if_neg h2]; exact .inl subset_rfl
  have hsub2 : ∀ k, f k ⊆ s.stack k ∨ (k = s.cur + 1 ∧ f k ⊆ s.stack s.cur) := by
    intro k
    rcases hsub k with h | ⟨h1, h2⟩
    · exact .inl h
    · exact .inr ⟨h1, by rw [h2]; exact hb⟩
  refine ⟨hInv.res_len, hInv.res_mem, ?_, ?_, ?_, hInv.dist_res, ?_⟩
  · intro i
    dsimp only
    rcases hsub2 i with h | ⟨-, h⟩
    · exact h.trans (hInv.stack_sub i)
    · exact h.trans (hInv.stack_sub s.cur)
  · intro i hi
    dsimp only at hi ⊢
    rw [hpt i, if_neg (by omega), if_neg (by omega)]
    exact hInv.stale i (by omega)
  · intro i j hij
    dsimp only
    rw [Finset.disjoint_left]
    intro a hai haj
    rw [hpt i] at hai
    rw [hpt j] at haj
    by_cases hi1 : i = s.cur + 1 <;> by_cases hj1 : j = s.cur + 1
    · exact hij (hi1.trans hj1.symm)
    · rw [if_pos hi1] at hai
      rw [if_neg hj1] at haj
      by_cases hj2 : j = s.cur
      · rw [if_pos hj2] at haj
        exact (Finset.mem_sdiff.mp haj).2 hai
      · rw [if_neg hj2] at haj
        exact Finset.disjoint_left.mp
          (hInv.disj s.cur j (fun h => hj2 h.symm)) (hb hai) haj
    · rw [if_neg hi1] at hai
      rw [if_pos hj1] at haj
      by_cases hi2 : i = s.cur
      · rw [if_pos hi2] at hai
        exact (Finset.mem_sdiff.mp hai).2 haj
      · rw [if_neg hi2] at hai
        exact Finset.disjoint_left.mp
          (hInv.disj i s.cur hi2) hai (hb haj)
    · rw [if_neg hi1] at hai
      rw [if_neg hj1] at haj
      by_cases hi2 : i = s.cur <;> by_cases hj2 : j = s.cur
      · exact hij (hi2.trans hj2.symm)
      · rw [if_pos hi2] at hai
        rw [if_neg hj2] at haj
        exact Finset.disjoint_left.mp (hInv.disj s.cur j (fun h => hj2 h.symm))
          (Finset.mem_sdiff.mp hai).1 haj
      · rw [if_neg hi2] at hai
        rw [if_pos hj2] at haj
        exact Finset.disjoint_left.mp (hInv.disj i s.cur hi2)
          hai (Finset.mem_sdiff.mp haj).1
      · rw [if_neg hi2] at hai
        rw [if_neg hj2] at haj
        exact Finset.disjoint_left.mp (hInv.disj i j hij) hai haj
  · intro dc hdc i d hd r hr
    dsimp only at hd hr
    rw [hpt i] at hd
    by_cases hi1 : i = s.cur + 1
    · rw [if_pos hi1] at hd
      exact hInv.dist_sep dc hdc s.cur d (hb hd) r hr
    · rw [if_neg hi1] at hd
      by_cases hi2 : i = s.cur
      · rw [if_pos hi2] at hd
        exact hInv.dist_sep dc hdc s.cur d (Finset.mem_sdiff.mp hd).1 r hr
      · rw [if_neg hi2] at hd
        exact hInv.dist_sep dc hdc i d hd r hr

/-- The invariant only depends on stacks (pointwise shrinking is fine),
`cur`, results and offset — not on rule states or the trace. -/
theorem BSInv.restack {ctx : SearchCtx} {uni : Finset ℕ} {length : ℕ} {s : BSSt σ}
    (hInv : BSInv ctx uni length s) {g : ℕ → Finset ℕ}
    (hg : ∀ k, g k ⊆ s.stack k) (tr : List BSEvent) (stf : ℕ → σ) :
    BSInv ctx uni length
      { states := stf, stack := g, cur := s.cur, results := s.results,
        cur_offset := s.cur_offset, trace := tr } := by
  refine ⟨hInv.res_len, hInv.res_mem, ?_, ?_, ?_, hInv.dist_res, ?_⟩
  · intro i
    exact (hg i).trans (hInv.stack_sub i)
  · intro i hi
    dsimp only at hi ⊢
    exact Finset.subset_empty.mp ((hInv.stale i hi) ▸ hg i)
  · intro i j hij
    exact Finset.disjoint_of_subset_left (hg i)
      (Finset.disjoint_of_subset_right (hg j) (hInv.disj i j hij))
  · intro dc hdc i d hd r hr
    exact hInv.dist_sep dc hdc i d (hg i hd) r hr

/-- Soundness of the main loop: from an invariant state, a normal return
yields at most `length` results, all from the universe, with pairwise
distinct values when a distinct field is configured. -/
theorem bsLoop_sound (ctx : SearchCtx) (rules : ℕ → RankingRule σ ε Q)
    (n frm length : ℕ) (uni : Finset ℕ)
    (hcontract : ∀ i, RuleContract (rules i))
    (hdocs : ∀ dc, ctx.distinct = some dc → uni ⊆ dc.docs) :
    ∀ (fuel : ℕ) (s : BSSt σ), BSInv ctx uni length s →
      ∀ res trace, bsLoop ctx rules n frm length fuel s = .ok res trace →
        res.length ≤ length ∧ (∀ d ∈ res, d ∈ uni) ∧
        (∀ dc, ctx.distinct = some dc →
          res.Pairwise (fun a b => dc.fval a ≠ dc.fval b)) := by
  intro fuel
  induction fuel with
  | zero =>
    intro s _ res trace h
    cases h
  | succ fuel ih =>
    intro s hInv res trace h
    rw [bsLoop] at h
    by_cases hfull : length ≤ s.results.length
    · rw [if_pos hfull] at h
      cases h
      exact ⟨hInv.res_len, hInv.res_mem, hInv.dist_res⟩
    · rw [if_neg hfull] at h
      by_cases hsmall : (s.stack s.cur).card ≤ 1
      · rw [if_pos hsmall] at h
        dsimp only at h
        have hInv2 : BSInv ctx uni length
            { maybe_add_to_results ctx frm length (s.stack s.cur) s with
              stack := Function.update
                (maybe_add_to_results ctx frm length (s.stack s.cur) s).stack
                (maybe_add_to_results ctx frm length (s.stack s.cur) s).cur ∅ } :=
          hInv.commitSlot hdocs frm
        unfold goBack at h
        set s2 : BSSt σ :=
          { maybe_add_to_results ctx frm length (s.stack s.cur) s with
            stack := Function.update
              (maybe_add_to_results ctx frm length (s.stack s.cur) s).stack
              (maybe_add_to_results ctx frm length (s.stack s.cur) s).cur ∅ } with hs2
        by_cases hne : s2.stack s2.cur = ∅
        swap
        · rw [if_pos hne] at h
          cases h
        · rw [if_neg (not_not_intro hne)] at h
          dsimp only at h
          by_cases h0 : s2.cur = 0
          · rw [if_pos h0] at h
            cases h
            exact ⟨hInv2.res_len, hInv2.res_mem, hInv2.dist_res⟩
          · rw [if_neg h0] at h
            exact ih _ (hInv2.popSlot _ _) res trace h
      · rw [if_neg hsmall] at h
        rcases hnext : (rules s.cur).next_bucket (s.states s.cur) (s.stack s.cur)
          with e | ⟨_ | bucket, st1⟩ <;> rw [hnext] at h
        · cases h
        · dsimp only at h
          have hInv1 : BSInv ctx uni length
              { s with states := Function.update s.states s.cur st1 } :=
            ⟨hInv.res_len, hInv.res_mem, hInv.stack_sub, hInv.stale, hInv.disj,
              hInv.dist_res, hInv.dist_sep⟩
          unfold goBack at h
          set s1 : BSSt σ := { s with states := Function.update s.states s.cur st1 }
            with hs1
          by_cases hne : s1.stack s1.cur = ∅
          swap
          · rw [if_pos hne] at h
            cases h
          · rw [if_neg (not_not_intro hne)] at h
            dsimp only at h
            by_cases h0 : s1.cur = 0
            · rw [if_pos h0] at h
              cases h
              exact ⟨hInv1.res_len, hInv1.res_mem, hInv1.dist_res⟩
            · rw [if_neg h0] at h
              exact ih _ (hInv1.popSlot _ _) res trace h
        · dsimp only at h
          have hbsub : bucket.candidates ⊆ s.stack s.cur :=
            hcontract s.cur _ _ _ _ hnext
          have hInv1 : BSInv ctx uni length
              { s with states := Function.update s.states s.cur st1,
                       stack := Function.update s.stack s.cur
                         (s.stack s.cur \ bucket.candidates) } := by
            refine hInv.restack ?_ s.trace _
            intro k
            by_cases hk : k = s.cur
            · subst hk
              rw [Function.update_same]
              exact Finset.sdiff_subset
            · rw [Function.update_noteq hk]
          by_cases hcommit : s.cur = n - 1 ∨ bucket.candidates.card ≤ 1
              ∨ s.cur_offset + bucket.candidates.card < frm
          · rw [if_pos hcommit] at h
            refine ih _ ?_ res trace h
            refine hInv1.maybe_add (hbsub.trans (hInv.stack_sub s.cur)) hdocs ?_ ?_ frm
            · intro dc hdc d hd r hr
              exact hInv.dist_sep dc hdc s.cur d (hbsub hd) r hr
            · intro i
              dsimp only
              by_cases hk : i = s.cur
              · subst hk
                rw [Function.update_same]
                exact Finset.sdiff_disjoint
              · rw [Function.update_noteq hk]
                exact Finset.disjoint_of_subset_right hbsub
                  (hInv.disj i s.cur hk)
          · rw [if_neg hcommit] at h
            rcases hstart : (rules (s.cur + 1)).start_iteration
                (Function.update s.states s.cur st1 (s.cur + 1))
                bucket.candidates bucket.query with e | st2 <;> rw [hstart] at h
            · cases h
            · exact ih _ (hInv.descend hbsub _ _) res trace h

/-- The initial driver state satisfies the soundness invariant. -/
theorem bsInit_inv (ctx : SearchCtx) (uni : Finset ℕ) (length : ℕ)
    (states0 : ℕ → σ) (st0 : σ) :
    BSInv ctx uni length (bsInit uni states0 st0) := by
  refine ⟨Nat.zero_le _, ?_, ?_, ?_, ?_, ?_, ?_⟩
  · intro d hd
    cases hd
  · intro i
    dsimp only [bsInit]
    split_ifs
    · exact subset_rfl
    · exact Finset.empty_subset _
  · intro i hi
    dsimp only [bsInit] at hi ⊢
    rw [if_neg (by omega)]
  · intro i j hij
    dsimp only [bsInit]
    split_ifs with h1 h2
    · exact absurd (h1.trans h2.symm) hij
    · simp
    · simp
    · simp
  · intro dc _
    exact List.Pairwise.nil
  · intro dc _ i d _ r hr
    cases hr

/-- `fullRule` satisfies the bucket contract. -/
theorem fullRule_contract : RuleContract fullRule := by
  intro s u b s' h
  simp only [fullRule, Except.ok.injEq, Prod.mk.injEq, Option.some.injEq] at h
  rw [← h.1]

/-! ### Claim C4: page-size bound and universe membership -/

/-- C4 amended (proved).  For well-behaved rules (bucket contract) and a
universe drawn from the indexed documents, every returned document is in the
universe, and the result is page-bounded by `length` — *except* on the
empty-rules-with-distinct path, where only the weaker bound `from + length`
holds (see the counterexample). -/
theorem C4_amended_bound_and_membership (ctx : SearchCtx) (rules : ℕ → RankingRule σ ε Q)
    (n : ℕ) (q : Q) (uni : Finset ℕ) (frm length : ℕ) (states0 : ℕ → σ) (fuel : ℕ)
    (res : List ℕ) (trace : List BSEvent)
    (hcontract : ∀ i, RuleContract (rules i))
    (hdocs : ∀ dc, ctx.distinct = some dc → uni ⊆ dc.docs)
    (h : bucket_sort ctx rules n q uni frm length states0 fuel = .ok res trace) :
    (∀ d ∈ res, d ∈ uni) ∧ res.length ≤ frm + length ∧
    ((n ≠ 0 ∨ ctx.distinct = none) → res.length ≤ length) := by
  unfold bucket_sort at h
  by_cases hg : uni.card < frm
  · rw [if_pos hg] at h
    cases h
    exact ⟨fun d hd => absurd hd (List.not_mem_nil d), Nat.zero_le _, fun _ => Nat.zero_le _⟩
  · rw [if_neg hg] at h
    by_cases hn : n = 0
    · rw [if_pos hn] at h
      rcases hd : ctx.distinct with _ | dc <;> rw [hd] at h <;> cases h
      · refine ⟨?_, ?_, fun _ => ?_⟩
        · intro d hd
          exact mem_ascList.mp (List.mem_of_mem_drop (List.mem_of_mem_take hd))
        · calc (((ascList uni).drop frm).take length).length ≤ length := by
                simp [List.length_take]
            _ ≤ frm + length := by omega
        · simp [List.length_take]
      · refine ⟨?_, ?_, ?_⟩
        · intro d hd
          exact mem_ascList.mp (erdLoop_mem dc (frm + length) (ascList uni) ∅ 0 d hd)
        · have := erdLoop_length dc (frm + length) (ascList uni) ∅ 0
          omega
        · intro hcase
          rcases hcase with hc | hc
          · exact absurd hn hc
          · exact nomatch hc
    · rw [if_neg hn] at h
      rcases hstart : (rules 0).start_iteration (states0 0) uni q with e | st0 <;>
        rw [hstart] at h
      · cases h
      · have H := bsLoop_sound ctx rules n frm length uni hcontract hdocs fuel
          (bsInit uni states0 st0) (bsInit_inv ctx uni length states0 st0) res trace h
        exact ⟨H.2.1, H.1.trans (by omega), fun _ => H.1⟩

/-- C4 counterexample: empty rules, distinct configured, universe `{0,1}`,
`from = 1`, `length = 1` — the code returns two documents, violating
`res.len() ≤ length`. -/
theorem C4_counterexample :
    bucket_sort distinctIdCtx (fun _ => trivRule) 0 () {0, 1} 1 1 (fun _ => ()) 8 =
      .ok [0, 1] [] ∧ ¬ ([0, 1] : List ℕ).length ≤ 1 :=
  ⟨by decide, by decide⟩

/-- Closed witness for the amended C4: a one-rule run on `{0,1}` with
`length = 2` whose two results are bounded and members of the universe. -/
theorem C4_witness :
    ([0, 1] : List ℕ).length ≤ 2 ∧ (0 : ℕ) ∈ ({0, 1} : Finset ℕ) := by
  have H := C4_amended_bound_and_membership noCtx (fun _ => fullRule) 1 () {0, 1} 0 2
    (fun _ => ()) 9 [0, 1] [.startIt 0] (fun _ => fullRule_contract)
    (fun dc hdc => nomatch hdc) (by decide)
  exact ⟨H.2.2 (Or.inl (by decide)), H.1 0 (by decide)⟩

/-! ### Claim C7: pairwise-distinct field values in the results -/

/-- Documents produced by the empty-rules distinct scan were not excluded at
the time they were scanned. -/
theorem erdLoop_not_excluded (dc : DistinctCtx) (limit : ℕ) :
    ∀ (l : List ℕ) (exc : Finset ℕ) (cnt x : ℕ),
      x ∈ erdLoop dc limit l exc cnt → x ∉ exc := by
  intro l
  induction l with
  | nil =>
    intro exc cnt x hx
    rw [erdLoop] at hx
    cases hx
  | cons d rest ih =>
    intro exc cnt x hx
    rw [erdLoop] at hx
    by_cases h1 : limit ≤ cnt
    · rw [if_pos h1] at hx
      cases hx
    · rw [if_neg h1] at hx
      by_cases h2 : d ∈ exc
      · rw [if_pos h2] at hx
        exact ih exc cnt x hx
      · rw [if_neg h2] at hx
        rcases List.mem_cons.mp hx with rfl | hx'
        · exact h2
        · intro hxe
          exact ih _ _ x hx' (distinct_single_mono dc d exc hxe)

/-- The empty-rules distinct scan returns pairwise-distinct field values,
provided the scanned candidates are indexed documents. -/
theorem erdLoop_pairwise (dc : DistinctCtx) (limit : ℕ) :
    ∀ (l : List ℕ) (exc : Finset ℕ) (cnt : ℕ), l.Nodup → (∀ x ∈ l, x ∈ dc.docs) →
      (erdLoop dc limit l exc cnt).Pairwise fun a b => dc.fval a ≠ dc.fval b := by
  intro l
  induction l with
  | nil =>
    intro exc cnt _ _
    rw [erdLoop]
    exact List.Pairwise.nil
  | cons d rest ih =>
    intro exc cnt hnd hmem
    rw [erdLoop]
    by_cases h1 : limit ≤ cnt
    · rw [if_pos h1]
      exact List.Pairwise.nil
    · rw [if_neg h1]
      by_cases h2 : d ∈ exc
      · rw [if_pos h2]
        exact ih exc cnt (List.nodup_cons.mp hnd).2
          (fun x hx => hmem x (List.mem_cons_of_mem _ hx))
      · rw [if_neg h2]
        refine List.Pairwise.cons ?_
          (ih _ _ (List.nodup_cons.mp hnd).2
            (fun x hx => hmem x (List.mem_cons_of_mem _ hx)))
        intro x hx hv
        have hxn := erdLoop_not_excluded dc limit rest _ _ x hx
        have hxr : x ∈ rest := erdLoop_mem dc limit rest _ _ x hx
        have hxd : x ≠ d := fun hxd => (List.nodup_cons.mp hnd).1 (hxd ▸ hxr)
        have hxdocs : x ∈ dc.docs := hmem x (List.mem_cons_of_mem _ hxr)
        apply hxn
        unfold distinct_single_docid
        exact Finset.mem_union_right _ (Finset.mem_filter.mpr ⟨hxdocs, hv.symm, hxd⟩)

/-- C7 (confirmed).  When a distinct field is configured, the universe is
made of indexed documents, and the rules respect the bucket contract, no two
returned documents share a distinct-field value — on every path of
`bucket_sort`. -/
theorem C7_distinct_values_unique (ctx : SearchCtx) (rules : ℕ → RankingRule σ ε Q)
    (n : ℕ) (q : Q) (uni : Finset ℕ) (frm length : ℕ) (states0 : ℕ → σ) (fuel : ℕ)
    (dc : DistinctCtx) (res : List ℕ) (trace : List BSEvent)
    (hdc : ctx.distinct = some dc) (hdocs : uni ⊆ dc.docs)
    (hcontract : ∀ i, RuleContract (rules i))
    (h : bucket_sort ctx rules n q uni frm length states0 fuel = .ok res trace) :
    res.Pairwise fun a b => dc.fval a ≠ dc.fval b := by
  unfold bucket_sort at h
  by_cases hg : uni.card < frm
  · rw [if_pos hg] at h
    cases h
    exact List.Pairwise.nil
  · rw [if_neg hg] at h
    by_cases hn : n = 0
    · rw [if_pos hn, hdc] at h
      cases h
      exact erdLoop_pairwise dc (frm + length) (ascList uni) ∅ 0 (ascList_nodup uni)
        (fun x hx => hdocs (mem_ascList.mp hx))
    · rw [if_neg hn] at h
      rcases hstart : (rules 0).start_iteration (states0 0) uni q with e | st0 <;>
        rw [hstart] at h
      · cases h
      · exact (bsLoop_sound ctx rules n frm length uni hcontract
          (fun dc' hdc' => by
            rw [hdc] at hdc'
            exact (Option.some.inj hdc') ▸ hdocs) fuel
          (bsInit uni states0 st0) (bsInit_inv ctx uni length states0 st0)
          res trace h).2.2 dc hdc

/-- Closed witness for C7: a one-rule run with distinct configured whose two
results carry distinct values. -/
theorem C7_witness :
    List.Pairwise
      (fun a b => (⟨{0, 1}, id⟩ : DistinctCtx).fval a ≠ (⟨{0, 1}, id⟩ : DistinctCtx).fval b)
      [0, 1] :=
  C7_distinct_values_unique distinctIdCtx (fun _ => fullRule) 1 () {0, 1} 0 2
    (fun _ => ()) 9 ⟨{0, 1}, id⟩ [0, 1] [.startIt 0] rfl (by decide)
    (fun _ => fullRule_contract) (by decide)

/-! ### Claim C10: termination of the main loop -/

theorem Wsum_mono {n : ℕ} {g g' : ℕ → Finset ℕ} (h : ∀ i, g i ⊆ g' i) :
    Wsum n g ≤ Wsum n g' :=
  Finset.sum_le_sum fun i _ => Nat.mul_le_mul_right _ (Finset.card_le_card (h i))

theorem Wsum_update {n : ℕ} (g : ℕ → Finset ℕ) {k : ℕ} (hk : k < n) (v : Finset ℕ) :
    Wsum n (Function.update g k v) + (g k).card * 2 ^ (n - k)
      = Wsum n g + v.card * 2 ^ (n - k) := by
  unfold Wsum
  have hcongr : ((Finset.range n).erase k).sum
        (fun i => (Function.update g k v i).card * 2 ^ (n - i))
      = ((Finset.range n).erase k).sum (fun i => (g i).card * 2 ^ (n - i)) :=
    Finset.sum_congr rfl fun i hi => by
      rw [Function.update_noteq (Finset.ne_of_mem_erase hi)]
  rw [← Finset.add_sum_erase (Finset.range n)
      (fun i => (Function.update g k v i).card * 2 ^ (n - i)) (Finset.mem_range.mpr hk),
    ← Finset.add_sum_erase (Finset.range n)
      (fun i => (g i).card * 2 ^ (n - i)) (Finset.mem_range.mpr hk)]
  rw [hcongr, Function.update_same]
  ring

/-- Committing a non-empty bucket out of slot `k` strictly decreases the
weighted stack size. -/
theorem Wsum_commit_lt {n : ℕ} (g : ℕ → Finset ℕ) {k : ℕ} (hk : k < n) {b : Finset ℕ}
    (hbsub : b ⊆ g k) (hbne : b.Nonempty) :
    Wsum n (Function.update g k (g k \ b)) < Wsum n g := by
  have e := Wsum_update g hk (g k \ b)
  have hcard : (g k \ b).card + 1 ≤ (g k).card := by
    rw [Finset.card_sdiff hbsub]
    have hb1 : 1 ≤ b.card := Finset.card_pos.mpr hbne
    have hble : b.card ≤ (g k).card := Finset.card_le_card hbsub
    omega
  have hmul := Nat.mul_le_mul_right (2 ^ (n - k)) hcard
  rw [Nat.add_mul, Nat.one_mul] at hmul
  have hw : 0 < 2 ^ (n - k) := pow_pos (by norm_num) _
  clear hcard
  revert e hmul hw
  generalize (g k).card * 2 ^ (n - k) = A
  generalize (g k \ b).card * 2 ^ (n - k) = C
  generalize 2 ^ (n - k) = w
  intro e hmul hw
  omega

/-- The main loop halts (never exhausts its fuel) once the fuel exceeds the
measure, provided every rule only emits non-empty sub-buckets. -/
theorem bsLoop_halts (ctx : SearchCtx) (rules : ℕ → RankingRule σ ε Q)
    (n frm length : ℕ) (hdc : ∀ i, DrainContract (rules i)) :
    ∀ (fuel : ℕ) (s : BSSt σ), s.cur < n → (∀ i, s.cur < i → s.stack i = ∅) →
      bsMeasure n s < fuel →
      (bsLoop ctx rules n frm length fuel s : BSOut ε).isFuelOut = false := by
  intro fuel
  induction fuel with
  | zero =>
    intro s _ _ hm
    omega
  | succ fuel ih =>
    intro s hcur hstale hm
    rw [bsLoop]
    by_cases hfull : length ≤ s.results.length
    · rw [if_pos hfull]
      rfl
    · rw [if_neg hfull]
      by_cases hsmall : (s.stack s.cur).card ≤ 1
      · rw [if_pos hsmall]
        dsimp only
        unfold goBack
        set m := maybe_add_to_results ctx frm length (s.stack s.cur) s with hmdef
        have hmc : m.cur = s.cur := maybe_add_cur ctx frm length (s.stack s.cur) s
        rw [hmc]
        rw [if_neg (not_not_intro (Function.update_same _ _ _))]
        dsimp only
        by_cases h0 : s.cur = 0
        · rw [if_pos h0]
          rfl
        · rw [if_neg h0]
          dsimp only
          have hsub : ∀ i,
              Function.update (Function.update m.stack s.cur ∅) s.cur ∅ i ⊆ s.stack i := by
            intro i
            by_cases hieq : i = s.cur
            · subst hieq
              rw [Function.update_same]
              exact Finset.empty_subset _
            · rw [Function.update_noteq hieq, Function.update_noteq hieq, hmdef,
                maybe_add_stack]
              exact Finset.sdiff_subset
          refine ih _ ?_ ?_ ?_
          · show s.cur - 1 < n
            omega
          · intro i hi
            have hi2 : s.cur - 1 < i := hi
            show Function.update (Function.update m.stack s.cur ∅) s.cur ∅ i = ∅
            by_cases hieq : i = s.cur
            · subst hieq
              rw [Function.update_same]
            · have hi' : s.cur < i := by omega
              rw [Function.update_noteq hieq, Function.update_noteq hieq, hmdef,
                maybe_add_stack, hstale i hi', Finset.empty_sdiff]
          · show Wsum n (Function.update (Function.update m.stack s.cur ∅) s.cur ∅)
                + (s.cur - 1) < fuel
            have hW := @Wsum_mono n _ _ hsub
            unfold bsMeasure at hm
            omega
      · rw [if_neg hsmall]
        have hne : s.stack s.cur ≠ ∅ := by
          intro he
          rw [he] at hsmall
          simp at hsmall
        rcases hnext : (rules s.cur).next_bucket (s.states s.cur) (s.stack s.cur)
          with e | ⟨_ | bucket, st1⟩
        · rfl
        · dsimp only
          unfold goBack
          rw [if_pos]
          · rfl
          · exact fun he => hne he
        · dsimp only
          obtain ⟨hbsub, hbne⟩ := hdc s.cur _ _ _ _ hnext
          by_cases hcommit : s.cur = n - 1 ∨ bucket.candidates.card ≤ 1
              ∨ s.cur_offset + bucket.candidates.card < frm
          · rw [if_pos hcommit]
            have hlt : Wsum n (Function.update s.stack s.cur (s.stack s.cur \ bucket.candidates))
                < Wsum n s.stack := Wsum_commit_lt s.stack hcur hbsub hbne
            refine ih _ ?_ ?_ ?_
            · exact hcur
            · intro i hi
              have hi' : s.cur < i := hi
              rw [maybe_add_stack]
              show Function.update s.stack s.cur (s.stack s.cur \ bucket.candidates) i \
                  postExcluded ctx bucket.candidates = ∅
              rw [Function.update_noteq (by omega : i ≠ s.cur), hstale i hi',
                Finset.empty_sdiff]
            · have hW : ∀ i, (maybe_add_to_results ctx frm length bucket.candidates
                  { s with states := Function.update s.states s.cur st1,
                           stack := Function.update s.stack s.cur
                             (s.stack s.cur \ bucket.candidates) }).stack i ⊆
                  Function.update s.stack s.cur (s.stack s.cur \ bucket.candidates) i := by
                intro i
                rw [maybe_add_stack]
                exact Finset.sdiff_subset
              have hW2 := @Wsum_mono n _ _ hW
              unfold bsMeasure at hm
              show Wsum n (maybe_add_to_results ctx frm length bucket.candidates
                  { s with states := Function.update s.states s.cur st1,
                           stack := Function.update s.stack s.cur
                             (s.stack s.cur \ bucket.candidates) }).stack + s.cur < fuel
              omega
          · rw [if_neg hcommit]
            rcases hstart : (rules (s.cur + 1)).start_iteration
                (Function.update s.states s.cur st1 (s.cur + 1))
                bucket.candidates bucket.query with e | st2
            · rfl
            · have hb2 : 2 ≤ bucket.candidates.card := by
                rcases Nat.lt_or_ge 1 bucket.candidates.card with h | h
                · omega
                · exact absurd (Or.inr (Or.inl h)) hcommit
              have hcurn : s.cur + 1 < n := by
                have : s.cur ≠ n - 1 := fun h => hcommit (Or.inl h)
                omega
              refine ih _ ?_ ?_ ?_
              · exact hcurn
              · intro i hi
                have hi' : s.cur + 1 < i := hi
                show Function.update (Function.update s.stack s.cur
                    (s.stack s.cur \ bucket.candidates)) (s.cur + 1) bucket.candidates i = ∅
                rw [Function.update_noteq (by omega : i ≠ s.cur + 1),
                  Function.update_noteq (by omega : i ≠ s.cur)]
                exact hstale i (by omega)
              · have e1 := Wsum_update s.stack hcur (s.stack s.cur \ bucket.candidates)
                have e2 := Wsum_update
                  (Function.update s.stack s.cur (s.stack s.cur \ bucket.candidates))
                  hcurn bucket.candidates
                rw [Function.update_noteq (by omega : s.cur + 1 ≠ s.cur),
                  hstale (s.cur + 1) (by omega), Finset.card_empty, Nat.zero_mul,
                  Nat.add_zero] at e2
                have hsplit : (s.stack s.cur \ bucket.candidates).card * 2 ^ (n - s.cur)
                    + bucket.candidates.card * 2 ^ (n - s.cur)
                    = (s.stack s.cur).card * 2 ^ (n - s.cur) := by
                  rw [← Nat.add_mul, Finset.card_sdiff hbsub,
                    Nat.sub_add_cancel (Finset.card_le_card hbsub)]
                have hpow : 2 ^ (n - s.cur)
                    = 2 ^ (n - (s.cur + 1)) + 2 ^ (n - (s.cur + 1)) := by
                  have hns : n - s.cur = (n - (s.cur + 1)) + 1 := by omega
                  rw [hns, pow_succ]
                  ring
                have hbw : bucket.candidates.card * 2 ^ (n - s.cur)
                    = bucket.candidates.card * 2 ^ (n - (s.cur + 1))
                      + bucket.candidates.card * 2 ^ (n - (s.cur + 1)) := by
                  rw [hpow]
                  ring
                have hz2 : 2 ≤ bucket.candidates.card * 2 ^ (n - (s.cur + 1)) := by
                  have hw1 : 0 < 2 ^ (n - (s.cur + 1)) := pow_pos (by norm_num) _
                  calc 2 = 2 * 1 := by norm_num
                    _ ≤ bucket.candidates.card * 2 ^ (n - (s.cur + 1)) :=
                        Nat.mul_le_mul hb2 hw1
                unfold bsMeasure at hm
                show Wsum n (Function.update (Function.update s.stack s.cur
                      (s.stack s.cur \ bucket.candidates)) (s.cur + 1) bucket.candidates)
                    + (s.cur + 1) < fuel
                clear hpow
                revert e1 e2 hsplit hbw hz2
                generalize bucket.candidates.card * 2 ^ (n - (s.cur + 1)) = Z
                generalize bucket.candidates.card * 2 ^ (n - s.cur) = Y
                generalize (s.stack s.cur \ bucket.candidates).card * 2 ^ (n - s.cur) = X
                generalize (s.stack s.cur).card * 2 ^ (n - s.cur) = A
                intro e1 e2 hsplit hbw hz2
                omega

/-- `maybe_add_to_results` on empty candidates leaves the results unchanged
when no distinct field is configured. -/
theorem maybe_add_empty_results_none (ctx : SearchCtx) (h : ctx.distinct = none)
    (frm length : ℕ) (s : BSSt σ) :
    (maybe_add_to_results ctx frm length ∅ s).results = s.results := by
  unfold maybe_add_to_results
  rw [h]
  dsimp only
  rw [if_pos rfl]

/-- C10 (confirmed, implicit).  If every rule's `next_bucket` returns either
`None` or a non-empty sub-bucket of its universe, the driver halts within
`|U| * 2^n + n` loop iterations (the fuel bound is never hit); and the
`emptyBucketRule`, which emits empty buckets forever, makes the main loop
run forever (every fuel is exhausted) on a two-document universe. -/
theorem C10_termination_and_divergence :
    (∀ (ctx : SearchCtx) (rules : ℕ → RankingRule σ ε Q) (n : ℕ) (q : Q)
        (uni : Finset ℕ) (frm length : ℕ) (states0 : ℕ → σ) (fuel : ℕ),
      (∀ i, DrainContract (rules i)) → uni.card * 2 ^ n + n < fuel →
      (bucket_sort ctx rules n q uni frm length states0 fuel : BSOut ε).isFuelOut = false) ∧
    (∀ fuel : ℕ,
      (bucket_sort noCtx (fun _ => emptyBucketRule) 1 () {0, 1} 0 1 (fun _ => ()) fuel
        : BSOut Unit).isFuelOut = true) := by
  constructor
  · intro ctx rules n q uni frm length states0 fuel hdcs hfuel
    unfold bucket_sort
    by_cases hg : uni.card < frm
    · rw [if_pos hg]
      rfl
    · rw [if_neg hg]
      by_cases hn : n = 0
      · rw [if_pos hn]
        rcases hD : ctx.distinct with _ | dc <;> rfl
      · rw [if_neg hn]
        rcases hstart : (rules 0).start_iteration (states0 0) uni q with e | st0
        · rfl
        · refine bsLoop_halts ctx rules n frm length hdcs fuel (bsInit uni states0 st0)
            (show (0 : ℕ) < n by omega) ?_ ?_
          · intro i hi
            dsimp only [bsInit] at hi ⊢
            rw [if_neg (by omega)]
          · unfold bsMeasure bsInit
            dsimp only
            have hWle : Wsum n (fun i => if i = 0 then uni else ∅) ≤ uni.card * 2 ^ n := by
              unfold Wsum
              rw [Finset.sum_eq_single 0
                (fun i _ hi0 => by
                  show (if i = 0 then uni else ∅).card * 2 ^ (n - i) = 0
                  rw [if_neg hi0, Finset.card_empty, Nat.zero_mul])
                (fun habs => absurd (Finset.mem_range.mpr (by omega)) habs)]
              show (if (0 : ℕ) = 0 then uni else ∅).card * 2 ^ (n - 0) ≤ uni.card * 2 ^ n
              rw [if_pos rfl, Nat.sub_zero]
            revert hWle hfuel
            generalize uni.card * 2 ^ n = B
            intro hWle hfuel
            omega
  · intro fuel
    show (bsLoop noCtx (fun _ => emptyBucketRule) 1 0 1 fuel
        (bsInit {0, 1} (fun _ => ()) ()) : BSOut Unit).isFuelOut = true
    have hrun : ∀ (fuel : ℕ) (s : BSSt Unit), s.results = [] → s.cur = 0 →
        s.stack 0 = {0, 1} → s.trace = [.startIt 0] →
        (bsLoop noCtx (fun _ => emptyBucketRule) 1 0 1 fuel s : BSOut Unit)
          = .fuelOut [.startIt 0] := by
      intro fuel
      induction fuel with
      | zero =>
        intro s hres hcur hstack htr
        rw [bsLoop, htr]
      | succ fuel ih =>
        intro s hres hcur hstack htr
        rw [bsLoop]
        dsimp only
        rw [if_neg (show ¬ (1 : ℕ) ≤ s.results.length by rw [hres]; decide)]
        rw [if_neg (show ¬ (s.stack s.cur).card ≤ 1 by rw [hcur, hstack]; decide)]
        have hnext : (emptyBucketRule.next_bucket (s.states s.cur) (s.stack s.cur) :
            Except Unit (Option (Bucket Unit) × Unit)) = .ok (some ⟨∅, ()⟩, ()) := rfl
        rw [hnext]
        dsimp only
        rw [if_pos (Or.inl (show s.cur = 1 - 1 by rw [hcur]))]
        refine ih _ ?_ ?_ ?_ ?_
        · rw [maybe_add_empty_results_none noCtx rfl]
          exact hres
        · rw [maybe_add_cur]
          exact hcur
        · rw [maybe_add_stack]
          dsimp only
          rw [hcur, Function.update_same, hstack]
          decide
        · rw [maybe_add_trace]
          exact htr
    rw [hrun fuel (bsInit {0, 1} (fun _ => ()) ()) rfl rfl
      (by unfold bsInit; dsimp only; rw [if_pos rfl]) rfl]
    rfl

/-- `noneRule` satisfies the strengthened (draining) bucket contract
vacuously: it never emits a bucket. -/
theorem noneRule_drain : DrainContract noneRule := by
  intro s u b s' h
  simp only [noneRule, Except.ok.injEq, Prod.mk.injEq] at h
  exact Option.noConfusion h.1

/-- Closed witness for C10: a draining one-rule search halts (here by the
drained-slot assertion) within the fuel bound, while the empty-bucket rule
exhausts a fuel of 10. -/
theorem C10_witness :
    (bucket_sort noCtx (fun _ => noneRule) 1 () ({0, 1} : Finset ℕ) 0 1 (fun _ => ()) 10
      : BSOut Unit).isFuelOut = false ∧
    (bucket_sort noCtx (fun _ => emptyBucketRule) 1 () ({0, 1} : Finset ℕ) 0 1 (fun _ => ()) 10
      : BSOut Unit).isFuelOut = true :=
  ⟨(@C10_termination_and_divergence Unit Unit Unit).1 noCtx (fun _ => noneRule) 1 ()
      {0, 1} 0 1 (fun _ => ()) 10 (fun _ => noneRule_drain) (by decide),
   (@C10_termination_and_divergence Unit Unit Unit).2 10⟩



/-! ### Claim C6: pagination machinery (stateless rules) -/

theorem flattenL_length (rules : ℕ → RankingRule Unit ε Q) (n : ℕ)
    (HSC : ∀ i u b s', (rules i).next_bucket () u = .ok (some b, s') →
      b.candidates ⊆ u ∧ b.candidates.Nonempty)
    (Hdrain : ∀ i u s', (rules i).next_bucket () u = .ok (none, s') → u = ∅)
    (Herr : ∀ i u e, (rules i).next_bucket () u ≠ .error e) :
    ∀ (N i : ℕ) (u : Finset ℕ), u.card * n + (n - i) ≤ N → i < n →
      (flattenL rules n i u).length = u.card := by
  intro N
  induction N with
  | zero =>
    intro i u hN hi
    omega
  | succ N ih =>
    intro i u hN hi
    rw [flattenL]
    by_cases h1 : u.card ≤ 1
    · rw [if_pos h1, length_ascList]
    · rw [if_neg h1]
      rcases hnb : (rules i).next_bucket () u with e | ⟨b?, s'⟩
      · exact absurd hnb (Herr i u e)
      · rcases b? with _ | b
        · have hu := Hdrain i u s' hnb
          rw [hu] at h1
          simp at h1
        · dsimp only
          obtain ⟨hbsub, hbne⟩ := HSC i u b s' hnb
          rw [dif_pos ⟨hbsub, hbne, hi⟩, List.length_append]
          have hble : b.candidates.card ≤ u.card := Finset.card_le_card hbsub
          have hb1 : 1 ≤ b.candidates.card := Finset.card_pos.mpr hbne
          have he : (u.card - 1) * n + n = u.card * n := by
            have h2 : u.card - 1 + 1 = u.card := by omega
            calc (u.card - 1) * n + n = (u.card - 1 + 1) * n := by ring
              _ = u.card * n := by rw [h2]
          have hm2 : (u \ b.candidates).card * n + (n - i) ≤ N := by
            rw [Finset.card_sdiff hbsub]
            have hmul := Nat.mul_le_mul_right n
              (show u.card - b.candidates.card ≤ u.card - 1 by omega)
            omega
          have hrec2 := ih i (u \ b.candidates) hm2 hi
          by_cases hc : i = n - 1 ∨ b.candidates.card ≤ 1
          · rw [if_pos hc, length_ascList, hrec2, Finset.card_sdiff hbsub]
            omega
          · rw [if_neg hc]
            have hm1 : b.candidates.card * n + (n - (i + 1)) ≤ N := by
              have hmul := Nat.mul_le_mul_right n hble
              omega
            have hi1 : i + 1 < n := by
              have h3 : i ≠ n - 1 := fun h => hc (Or.inl h)
              omega
            rw [ih (i + 1) b.candidates hm1 hi1, hrec2, Finset.card_sdiff hbsub]
            omega

theorem windowSkip (lc P' r : List ℕ) (frm length o : ℕ) (h : o + lc.length < frm) :
    r ++ ((lc ++ P').drop (frm - o)).take (length - r.length)
      = r ++ (P'.drop (frm - (o + lc.length))).take (length - r.length) := by
  rw [List.drop_append_eq_append_drop,
    List.drop_eq_nil_of_le (by omega : lc.length ≤ frm - o), List.nil_append]
  have hidx : frm - o - lc.length = frm - (o + lc.length) := by omega
  rw [hidx]

theorem windowEmit (lc P' r : List ℕ) (frm length o : ℕ) (h : frm ≤ o + lc.length) :
    (r ++ (lc.drop (frm - o)).take (length - r.length))
        ++ (P'.drop (frm - (o + lc.length))).take
          (length - (r ++ (lc.drop (frm - o)).take (length - r.length)).length)
      = r ++ ((lc ++ P').drop (frm - o)).take (length - r.length) := by
  rw [show frm - (o + lc.length) = 0 from by omega, List.drop_zero, List.append_assoc]
  congr 1
  rw [List.drop_append_eq_append_drop,
    show frm - o - lc.length = 0 from by omega, List.drop_zero,
    List.take_append_eq_append_take]
  congr 1
  have hidx : length - (r ++ (lc.drop (frm - o)).take (length - r.length)).length
      = (length - r.length) - (lc.drop (frm - o)).length := by
    rw [List.length_append, List.length_take, List.length_drop]
    omega
  rw [hidx]

theorem postDistinct_none (ctx : SearchCtx) (h : ctx.distinct = none) (c : Finset ℕ) :
    postDistinct ctx c = c := by
  unfold postDistinct
  rw [h]

theorem postExcluded_none (ctx : SearchCtx) (h : ctx.distinct = none) (c : Finset ℕ) :
    postExcluded ctx c = ∅ := by
  unfold postExcluded
  rw [h]

theorem maybe_add_none_results (ctx : SearchCtx) (h : ctx.distinct = none)
    (frm length : ℕ) (c : Finset ℕ) (s : BSSt σ) :
    (maybe_add_to_results ctx frm length c s).results =
      if c = ∅ then s.results
      else if s.cur_offset < frm then
        if s.cur_offset + c.card < frm then s.results
        else s.results ++ ((ascList c).drop (frm - s.cur_offset)).take
          (length - s.results.length)
      else s.results ++ (ascList c).take (length - s.results.length) := by
  unfold maybe_add_to_results
  rw [h]
  dsimp only
  rw [List.splitAt_eq]

theorem window_maybe_add (ctx : SearchCtx) (hd : ctx.distinct = none)
    (frm length : ℕ) (c : Finset ℕ) (s : BSSt σ) (P' : List ℕ) :
    (maybe_add_to_results ctx frm length c s).results
        ++ (P'.drop (frm - (maybe_add_to_results ctx frm length c s).cur_offset)).take
          (length - (maybe_add_to_results ctx frm length c s).results.length)
      = s.results ++ ((ascList c ++ P').drop (frm - s.cur_offset)).take
          (length - s.results.length) := by
  rw [maybe_add_none_results ctx hd, maybe_add_cur_offset, postDistinct_none ctx hd]
  have hlen : (ascList c).length = c.card := length_ascList c
  by_cases hc : c = ∅
  · rw [if_pos hc]
    subst hc
    rw [ascList_empty, Finset.card_empty, Nat.add_zero, List.nil_append]
  · rw [if_neg hc]
    by_cases h1 : s.cur_offset < frm
    · rw [if_pos h1]
      by_cases h2 : s.cur_offset + c.card < frm
      · rw [if_pos h2]
        rw [← hlen] at h2
        have hws := windowSkip (ascList c) P' s.results frm length s.cur_offset h2
        rw [hlen] at hws
        exact hws.symm
      · rw [if_neg h2]
        rw [← hlen] at h2
        have := windowEmit (ascList c) P' s.results frm length s.cur_offset (by omega)
        rw [hlen] at this
        exact this
    · rw [if_neg h1]
      have hwe := windowEmit (ascList c) P' s.results frm length s.cur_offset
        (by rw [hlen]; omega)
      rw [hlen, show frm - s.cur_offset = 0 from by omega, List.drop_zero] at hwe
      rw [show frm - s.cur_offset = 0 from by omega] 
      exact hwe

theorem pendBelow_congr (rules : ℕ → RankingRule Unit ε Q) (n : ℕ)
    {g g' : ℕ → Finset ℕ} :
    ∀ c, (∀ i, i < c → g i = g' i) →
      pendBelow rules n g c = pendBelow rules n g' c := by
  intro c
  induction c with
  | zero => intro _; rfl
  | succ c ih =>
    intro h
    rw [pendBelow, pendBelow, h c (by omega), ih (fun i hi => h i (by omega))]

/-- The main loop computes a window of the idealized flattening: from any
reachable state, a normal return extends the current results with the
`from`/`length` window of the pending emission. -/
theorem bsLoop_window (ctx : SearchCtx) (hd : ctx.distinct = none)
    (rules : ℕ → RankingRule Unit ε Q) (n frm length : ℕ)
    (HSC : ∀ i u b s', (rules i).next_bucket () u = .ok (some b, s') →
      b.candidates ⊆ u ∧ b.candidates.Nonempty)
    (Hdrain : ∀ i u s', (rules i).next_bucket () u = .ok (none, s') → u = ∅)
    (Herr : ∀ i u e, (rules i).next_bucket () u ≠ .error e) :
    ∀ (fuel : ℕ) (s : BSSt Unit), s.cur < n → (∀ i, s.cur < i → s.stack i = ∅) →
      ∀ R tr, bsLoop ctx rules n frm length fuel s = .ok R tr →
        R = s.results ++
          ((flattenL rules n s.cur (s.stack s.cur)
              ++ pendBelow rules n s.stack s.cur).drop (frm - s.cur_offset)).take
            (length - s.results.length) := by
  intro fuel
  induction fuel with
  | zero =>
    intro s _ _ R tr h
    cases h
  | succ fuel ih =>
    intro s hcur hstale R tr h
    rw [bsLoop] at h
    by_cases hfull : length ≤ s.results.length
    · rw [if_pos hfull] at h
      cases h
      rw [Nat.sub_eq_zero_of_le hfull, List.take_zero, List.append_nil]
    · rw [if_neg hfull] at h
      by_cases hsmall : (s.stack s.cur).card ≤ 1
      · rw [if_pos hsmall] at h
        dsimp only at h
        have hfl : flattenL rules n s.cur (s.stack s.cur) = ascList (s.stack s.cur) := by
          rw [flattenL, if_pos hsmall]
        unfold goBack at h
        set m := maybe_add_to_results ctx frm length (s.stack s.cur) s with hmdef
        by_cases hne : Function.update m.stack m.cur ∅ m.cur = ∅
        swap
        · exact absurd (Function.update_same _ _ _) hne
        · rw [if_neg (not_not_intro hne)] at h
          dsimp only at h
          by_cases h0 : m.cur = 0
          · rw [if_pos h0] at h
            cases h
            have h0' : s.cur = 0 := h0
            have hpb : pendBelow rules n s.stack s.cur = [] := by
              rw [h0']
              rfl
            rw [hfl, hpb, List.append_nil]
            have hw := window_maybe_add ctx hd frm length (s.stack s.cur) s []
            simp only [List.drop_nil, List.take_nil, List.append_nil] at hw
            exact hw
          · rw [if_neg h0] at h
            have h0' : s.cur ≠ 0 := h0
            refine (ih _ ?_ ?_ R tr h).trans ?_
            · show s.cur - 1 < n
              omega
            · intro i hi
              have hi2 : s.cur - 1 < i := hi
              show Function.update (Function.update m.stack s.cur ∅) s.cur ∅ i = ∅
              by_cases hieq : i = s.cur
              · subst hieq
                rw [Function.update_same]
              · rw [Function.update_noteq hieq, Function.update_noteq hieq, hmdef,
                  maybe_add_stack, hstale i (by omega), Finset.empty_sdiff]
            · show m.results ++
                  ((flattenL rules n (s.cur - 1)
                      (Function.update (Function.update m.stack s.cur ∅) s.cur ∅ (s.cur - 1))
                    ++ pendBelow rules n
                      (Function.update (Function.update m.stack s.cur ∅) s.cur ∅)
                      (s.cur - 1)).drop (frm - m.cur_offset)).take
                    (length - m.results.length)
                = s.results ++
                  ((flattenL rules n s.cur (s.stack s.cur)
                      ++ pendBelow rules n s.stack s.cur).drop (frm - s.cur_offset)).take
                    (length - s.results.length)
              have hA : Function.update (Function.update m.stack s.cur ∅) s.cur ∅ (s.cur - 1)
                  = s.stack (s.cur - 1) := by
                rw [Function.update_noteq (by omega : s.cur - 1 ≠ s.cur),
                  Function.update_noteq (by omega : s.cur - 1 ≠ s.cur), hmdef,
                  maybe_add_stack, postExcluded_none ctx hd, Finset.sdiff_empty]
              have hB : pendBelow rules n
                    (Function.update (Function.update m.stack s.cur ∅) s.cur ∅) (s.cur - 1)
                  = pendBelow rules n s.stack (s.cur - 1) :=
                pendBelow_congr rules n (s.cur - 1) (fun i hi => by
                  rw [Function.update_noteq (by omega : i ≠ s.cur),
                    Function.update_noteq (by omega : i ≠ s.cur), hmdef,
                    maybe_add_stack, postExcluded_none ctx hd, Finset.sdiff_empty])
              have hE : flattenL rules n (s.cur - 1) (s.stack (s.cur - 1))
                  ++ pendBelow rules n s.stack (s.cur - 1)
                  = pendBelow rules n s.stack s.cur := by
                conv_rhs => rw [show s.cur = (s.cur - 1) + 1 from by omega, pendBelow]
              rw [hA, hB, hE, hfl]
              exact window_maybe_add ctx hd frm length (s.stack s.cur) s
                (pendBelow rules n s.stack s.cur)
      · rw [if_neg hsmall] at h
        rcases hnext : (rules s.cur).next_bucket (s.states s.cur) (s.stack s.cur)
          with e | ⟨_ | b, st1⟩ <;> rw [hnext] at h
        · cases h
        · dsimp only at h
          unfold goBack at h
          by_cases hne : ({ s with states := Function.update s.states s.cur st1 }
              : BSSt Unit).stack ({ s with states := Function.update s.states s.cur st1 }
              : BSSt Unit).cur = ∅
          · exfalso
            have hne' : s.stack s.cur = ∅ := hne
            rw [hne'] at hsmall
            simp at hsmall
          · rw [if_pos hne] at h
            cases h
        · have hnext' : (rules s.cur).next_bucket () (s.stack s.cur) = .ok (some b, st1) :=
            hnext
          obtain ⟨hbsub, hbne⟩ := HSC s.cur (s.stack s.cur) b st1 hnext'
          have hbne' : b.candidates ≠ ∅ := Finset.nonempty_iff_ne_empty.mp hbne
          have hb1 : 1 ≤ b.candidates.card := Finset.card_pos.mpr hbne
          have hflu : flattenL rules n s.cur (s.stack s.cur)
              = (if s.cur = n - 1 ∨ b.candidates.card ≤ 1 then ascList b.candidates
                 else flattenL rules n (s.cur + 1) b.candidates)
                ++ flattenL rules n s.cur (s.stack s.cur \ b.candidates) := by
            conv_lhs => rw [flattenL]
            rw [if_neg hsmall, hnext']
            dsimp only
            rw [dif_pos ⟨hbsub, hbne, hcur⟩]
          dsimp only at h
          by_cases hcommit : s.cur = n - 1 ∨ b.candidates.card ≤ 1
              ∨ s.cur_offset + b.candidates.card < frm
          · rw [if_pos hcommit] at h
            have hstk : ∀ i, (maybe_add_to_results ctx frm length b.candidates
                { s with states := Function.update s.states s.cur st1,
                         stack := Function.update s.stack s.cur
                           (s.stack s.cur \ b.candidates) }).stack i
                = Function.update s.stack s.cur (s.stack s.cur \ b.candidates) i := by
              intro i
              rw [maybe_add_stack, postExcluded_none ctx hd, Finset.sdiff_empty]
            refine (ih _ ?_ ?_ R tr h).trans ?_
            · exact hcur
            · intro i hi
              have hi' : s.cur < i := hi
              rw [hstk i, Function.update_noteq (by omega : i ≠ s.cur), hstale i hi']
            · have hcur2 : (maybe_add_to_results ctx frm length b.candidates
                  { s with states := Function.update s.states s.cur st1,
                           stack := Function.update s.stack s.cur
                             (s.stack s.cur \ b.candidates) }).cur = s.cur := rfl
              rw [hstk, hcur2, Function.update_same]
              have hpb2 : pendBelow rules n (maybe_add_to_results ctx frm length b.candidates
                    { s with states := Function.update s.states s.cur st1,
                             stack := Function.update s.stack s.cur
                               (s.stack s.cur \ b.candidates) }).stack s.cur
                  = pendBelow rules n s.stack s.cur :=
                pendBelow_congr rules n s.cur (fun i hi => by
                  rw [hstk i, Function.update_noteq (by omega : i ≠ s.cur)])
              rw [hpb2]
              have hw := window_maybe_add ctx hd frm length b.candidates
                { s with states := Function.update s.states s.cur st1,
                         stack := Function.update s.stack s.cur
                           (s.stack s.cur \ b.candidates) }
                (flattenL rules n s.cur (s.stack s.cur \ b.candidates)
                  ++ pendBelow rules n s.stack s.cur)
              refine hw.trans ?_
              rw [hflu]
              by_cases hcd : s.cur = n - 1 ∨ b.candidates.card ≤ 1
              · rw [if_pos hcd, List.append_assoc]
              · rw [if_neg hcd]
                have hskip : s.cur_offset + b.candidates.card < frm := by
                  rcases hcommit with hc | hc | hc
                  · exact absurd (Or.inl hc) hcd
                  · exact absurd (Or.inr hc) hcd
                  · exact hc
                have hcn : s.cur + 1 < n := by
                  have hne2 : s.cur ≠ n - 1 := fun hh => hcd (Or.inl hh)
                  omega
                have hlen1 : (flattenL rules n (s.cur + 1) b.candidates).length
                    = b.candidates.card :=
                  flattenL_length rules n HSC Hdrain Herr
                    (b.candidates.card * n + (n - (s.cur + 1))) (s.cur + 1)
                    b.candidates le_rfl hcn
                rw [List.append_assoc]
                have hsk1 := windowSkip (ascList b.candidates)
                  (flattenL rules n s.cur (s.stack s.cur \ b.candidates)
                    ++ pendBelow rules n s.stack s.cur) s.results frm length s.cur_offset
                  (by rw [length_ascList]; omega)
                have hsk2 := windowSkip (flattenL rules n (s.cur + 1) b.candidates)
                  (flattenL rules n s.cur (s.stack s.cur \ b.candidates)
                    ++ pendBelow rules n s.stack s.cur) s.results frm length s.cur_offset
                  (by rw [hlen1]; omega)
                rw [length_ascList] at hsk1
                rw [hlen1] at hsk2
                exact hsk1.trans hsk2.symm
          · rw [if_neg hcommit] at h
            have hcm1 : s.cur ≠ n - 1 := fun hh => hcommit (Or.inl hh)
            have hcm2 : ¬ b.candidates.card ≤ 1 := fun hh => hcommit (Or.inr (Or.inl hh))
            have hcn : s.cur + 1 < n := by omega
            rcases hstart : (rules (s.cur + 1)).start_iteration
                (Function.update s.states s.cur st1 (s.cur + 1))
                b.candidates b.query with e | st2 <;> rw [hstart] at h
            · cases h
            · refine (ih _ ?_ ?_ R tr h).trans ?_
              · exact hcn
              · intro i hi
                have hi' : s.cur + 1 < i := hi
                show Function.update (Function.update s.stack s.cur
                    (s.stack s.cur \ b.candidates)) (s.cur + 1) b.candidates i = ∅
                rw [Function.update_noteq (by omega : i ≠ s.cur + 1),
                  Function.update_noteq (by omega : i ≠ s.cur)]
                exact hstale i (by omega)
              · show s.results ++
                    ((flattenL rules n (s.cur + 1)
                        (Function.update (Function.update s.stack s.cur
                          (s.stack s.cur \ b.candidates)) (s.cur + 1) b.candidates (s.cur + 1))
                      ++ pendBelow rules n
                        (Function.update (Function.update s.stack s.cur
                          (s.stack s.cur \ b.candidates)) (s.cur + 1) b.candidates)
                        (s.cur + 1)).drop (frm - s.cur_offset)).take
                      (length - s.results.length)
                  = s.results ++
                    ((flattenL rules n s.cur (s.stack s.cur)
                        ++ pendBelow rules n s.stack s.cur).drop (frm - s.cur_offset)).take
                      (length - s.results.length)
                rw [Function.update_same]
                have hpb3 : pendBelow rules n
                      (Function.update (Function.update s.stack s.cur
                        (s.stack s.cur \ b.candidates)) (s.cur + 1) b.candidates) (s.cur + 1)
                    = flattenL rules n s.cur (s.stack s.cur \ b.candidates)
                      ++ pendBelow rules n s.stack s.cur := by
                  rw [pendBelow, Function.update_noteq (by omega : s.cur ≠ s.cur + 1),
                    Function.update_same]
                  congr 1
                  exact pendBelow_congr rules n s.cur (fun i hi => by
                    rw [Function.update_noteq (by omega : i ≠ s.cur + 1),
                      Function.update_noteq (by omega : i ≠ s.cur)])
                rw [hpb3, hflu, if_neg (fun hh => hcommit (hh.imp id Or.inl)),
                  List.append_assoc]

theorem bucket_sort_window (ctx : SearchCtx) (hd : ctx.distinct = none)
    (rules : ℕ → RankingRule Unit ε Q) (n : ℕ) (q : Q) (uni : Finset ℕ)
    (HSC : ∀ i u b s', (rules i).next_bucket () u = .ok (some b, s') →
      b.candidates ⊆ u ∧ b.candidates.Nonempty)
    (Hdrain : ∀ i u s', (rules i).next_bucket () u = .ok (none, s') → u = ∅)
    (Herr : ∀ i u e, (rules i).next_bucket () u ≠ .error e) :
    ∀ (frm length : ℕ) (states0 : ℕ → Unit) (fuel : ℕ) (res : List ℕ)
      (tr : List BSEvent),
      bucket_sort ctx rules n q uni frm length states0 fuel = .ok res tr →
      res = ((if n = 0 then ascList uni else flattenL rules n 0 uni).drop frm).take length := by
  intro frm length states0 fuel res tr h
  have hFlen : (if n = 0 then ascList uni else flattenL rules n 0 uni).length = uni.card := by
    by_cases hn : n = 0
    · rw [if_pos hn, length_ascList]
    · rw [if_neg hn]
      exact flattenL_length rules n HSC Hdrain Herr (uni.card * n + (n - 0)) 0 uni
        le_rfl (by omega)
  unfold bucket_sort at h
  by_cases hg : uni.card < frm
  · rw [if_pos hg] at h
    cases h
    rw [List.drop_eq_nil_of_le (by omega), List.take_nil]
  · rw [if_neg hg] at h
    by_cases hn : n = 0
    · rw [if_pos hn, hd] at h
      dsimp only at h
      cases h
      rw [if_pos hn]
    · rw [if_neg hn] at h
      rcases hstart : (rules 0).start_iteration (states0 0) uni q with e | st0 <;>
        rw [hstart] at h
      · cases h
      · have hwin := bsLoop_window ctx hd rules n frm length HSC Hdrain Herr fuel
          (bsInit uni states0 st0) (show (0 : ℕ) < n by omega)
          (fun i hi => by
            show (if i = 0 then uni else ∅) = ∅
            rw [if_neg (by omega : ¬ i = 0)])
          res tr h
        rw [if_neg hn]
        refine hwin.trans ?_
        show ([] : List ℕ) ++
            ((flattenL rules n 0 (if (0 : ℕ) = 0 then uni else ∅)
              ++ pendBelow rules n (fun i => if i = 0 then uni else ∅) 0).drop
              (frm - 0)).take (length - 0)
          = (List.drop frm (flattenL rules n 0 uni)).take length
        rw [if_pos rfl, List.nil_append, Nat.sub_zero, Nat.sub_zero,
          show pendBelow rules n (fun i => if i = 0 then uni else ∅) 0 = ([] : List ℕ)
            from rfl,
          List.append_nil]

theorem minRule_head_mem {u : Finset ℕ} (hu : u ≠ ∅) : (ascList u).headD 0 ∈ u := by
  have hne : ascList u ≠ [] := by
    intro hnil
    have := length_ascList u
    rw [hnil] at this
    exact hu (Finset.card_eq_zero.mp this.symm)
  rw [← mem_ascList]
  rcases hl : ascList u with _ | ⟨x, xs⟩
  · exact absurd hl hne
  · rw [List.headD_cons]
    exact List.mem_cons_self x xs

theorem minRule_some {u : Finset ℕ} {b : Bucket Unit} {s' : Unit}
    (h : minRule.next_bucket () u = .ok (some b, s')) :
    b.candidates ⊆ u ∧ b.candidates.Nonempty := by
  by_cases hu : u = ∅
  · simp [minRule, hu] at h
  · simp only [minRule, if_neg hu, Except.ok.injEq, Prod.mk.injEq, Option.some.injEq] at h
    rw [← h.1]
    constructor
    · intro x hx
      rw [Finset.mem_singleton] at hx
      rw [hx]
      exact minRule_head_mem hu
    · exact ⟨_, Finset.mem_singleton_self _⟩

theorem minRule_none {u : Finset ℕ} {s' : Unit}
    (h : minRule.next_bucket () u = .ok (none, s')) : u = ∅ := by
  by_cases hu : u = ∅
  · exact hu
  · simp only [minRule, if_neg hu, Except.ok.injEq, Prod.mk.injEq] at h
    exact Option.noConfusion h.1

theorem minRule_noerr (u : Finset ℕ) (e : Unit) : minRule.next_bucket () u ≠ .error e :=
  fun h => Except.noConfusion h

/-- C6 amended (proved).  For *stateless* rules (state type `Unit`, so
`next_bucket` depends only on the slot universe) that respect the draining
bucket contract (emitted buckets are non-empty sub-buckets, `None` only on
an empty universe, no errors), with no distinct field, pagination composes:
the pages `(from = a, length = b)` and `(from = a + b, length = c)`
concatenate to the page `(from = a, length = b + c)` whenever all three runs
return normally.  The original claim fails for deterministic,
contract-respecting rules whose state survives across descents (see the
counterexample). -/
theorem C6_amended_pagination (ctx : SearchCtx) (rules : ℕ → RankingRule Unit ε Q)
    (n : ℕ) (q : Q) (uni : Finset ℕ) (a b c : ℕ)
    (states1 states2 states3 : ℕ → Unit) (fuel1 fuel2 fuel3 : ℕ)
    (r1 r2 r3 : List ℕ) (t1 t2 t3 : List BSEvent)
    (hd : ctx.distinct = none)
    (HSC : ∀ i u bk s', (rules i).next_bucket () u = .ok (some bk, s') →
      bk.candidates ⊆ u ∧ bk.candidates.Nonempty)
    (Hdrain : ∀ i u s', (rules i).next_bucket () u = .ok (none, s') → u = ∅)
    (Herr : ∀ i u e, (rules i).next_bucket () u ≠ .error e)
    (h1 : bucket_sort ctx rules n q uni a b states1 fuel1 = .ok r1 t1)
    (h2 : bucket_sort ctx rules n q uni (a + b) c states2 fuel2 = .ok r2 t2)
    (h3 : bucket_sort ctx rules n q uni a (b + c) states3 fuel3 = .ok r3 t3) :
    r1 ++ r2 = r3 := by
  have e1 := bucket_sort_window ctx hd rules n q uni HSC Hdrain Herr a b states1
    fuel1 r1 t1 h1
  have e2 := bucket_sort_window ctx hd rules n q uni HSC Hdrain Herr (a + b) c states2
    fuel2 r2 t2 h2
  have e3 := bucket_sort_window ctx hd rules n q uni HSC Hdrain Herr a (b + c) states3
    fuel3 r3 t3 h3
  rw [e1, e2, e3, List.take_add]
  congr 2
  rw [List.drop_drop, Nat.add_comm]

/-- C6 counterexample: `c6rules` is a deterministic, contract-respecting
rule list, but `ruleB6`'s state survives across descents (it counts
`start_iteration` calls and reverses its emission order from the second
descent on).  Page `(0, 3)` followed by page `(3, 1)` yields `[0,1,9,3]`,
while the single page `(0, 4)` yields `[0,1,9,4]`. -/
theorem C6_counterexample :
    bucket_sort noCtx c6rules 2 () ({0, 1, 2, 3, 4, 9} : Finset ℕ) 0 3 (fun _ => 0) 99 =
      .ok [0, 1, 9] [.startIt 0, .startIt 1, .endIt 1, .startIt 1] ∧
    bucket_sort noCtx c6rules 2 () ({0, 1, 2, 3, 4, 9} : Finset ℕ) 3 1 (fun _ => 0) 99 =
      .ok [3] [.startIt 0, .startIt 1] ∧
    bucket_sort noCtx c6rules 2 () ({0, 1, 2, 3, 4, 9} : Finset ℕ) 0 4 (fun _ => 0) 99 =
      .ok [0, 1, 9, 4] [.startIt 0, .startIt 1, .endIt 1, .startIt 1] ∧
    ([0, 1, 9] : List ℕ) ++ [3] ≠ [0, 1, 9, 4] :=
  ⟨by decide, by decide, by decide, by decide⟩

/-- Closed witness for the amended C6: pagination composes for the stateless
`minRule` on the universe `{3, 5}`. -/
theorem C6_witness : ([3] : List ℕ) ++ [5] = [3, 5] :=
  C6_amended_pagination noCtx (fun _ => minRule) 1 () {3, 5} 0 1 1
    (fun _ => ()) (fun _ => ()) (fun _ => ()) 20 20 20
    [3] [5] [3, 5] [.startIt 0] [.startIt 0, .endIt 0] [.startIt 0, .endIt 0]
    rfl (fun _ u bk s' h => minRule_some h) (fun _ u s' h => minRule_none h)
    (fun _ u e => minRule_noerr u e)
    (by decide) (by decide) (by decide)

end BucketProofs

end MeiliCore
